import Mathlib

set_option maxRecDepth 100000

/-!
Verification of the bochs-dual-monitor MDA viewer (src/mda_viewer/__main__.py and
src/mda_viewer/cp866.py) against its specification.

Strings are modelled as List Char (Python str is a sequence of Unicode scalar
values, exactly what Lean Char represents).  Bytes are modelled as Nat values,
with bounds stated where they matter.  Every definition in the first half of
this file is a direct shallow embedding of a Python function or expression of
the source; comments name the embedded source construct.
-/

/-! ## Character classes used by the regular expressions of __main__.py -/

/-- Hexadecimal digit, the character class [0-9A-Fa-f] of the three regexes,
expressed on code points: 0x30-0x39, 0x41-0x46, 0x61-0x66. -/
def isHexDigit (c : Char) : Bool :=
  (0x30 ≤ c.toNat && c.toNat ≤ 0x39) || (0x41 ≤ c.toNat && c.toNat ≤ 0x46) ||
  (0x61 ≤ c.toNat && c.toNat ≤ 0x66)

/-- Numeric value of one hexadecimal digit, as int(tok, 16) computes it digitwise. -/
def hexVal (c : Char) : Nat :=
  if 0x30 ≤ c.toNat && c.toNat ≤ 0x39 then c.toNat - 48
  else if 0x41 ≤ c.toNat && c.toNat ≤ 0x46 then c.toNat - 55
  else c.toNat - 87

/-- Word constituent for the regex word-boundary operator of Python re.
Python treats a character as a word constituent when it is alphanumeric or an
underscore under Unicode rules.  Within the character repertoire reachable in
this program (ASCII plus everything the CP866 code page can produce) the word
constituents are exactly ASCII alphanumerics, the underscore, and the letters
of the Unicode Cyrillic block 0x400-0x4FF; the remaining CP866 glyphs (box
drawing, shade blocks, degree sign, middle dots, square root, numero sign,
currency sign, black square, no-break space) are not word constituents. -/
def isWordChar (c : Char) : Bool :=
  (0x30 ≤ c.toNat && c.toNat ≤ 0x39) || (0x41 ≤ c.toNat && c.toNat ≤ 0x5A) ||
  (0x61 ≤ c.toNat && c.toNat ≤ 0x7A) || c.toNat == 0x5F ||
  (0x400 ≤ c.toNat && c.toNat ≤ 0x4FF)

/-- Line-break characters of Python str.splitlines: LF, VT, FF, CR, FS, GS, RS,
NEL, LINE SEPARATOR, PARAGRAPH SEPARATOR. -/
def isLineBreak (c : Char) : Bool :=
  c == '\n' || c == '\r' || c.toNat == 0x0b || c.toNat == 0x0c ||
  c.toNat == 0x1c || c.toNat == 0x1d || c.toNat == 0x1e ||
  c.toNat == 0x85 || c.toNat == 0x2028 || c.toNat == 0x2029

/-! ## The CP866 code page (src/mda_viewer/cp866.py)

The Python module builds a 256-entry tuple CP866 whose entry i is the UTF-8
encoding of the single character obtained by decoding byte i under the CP866
codec.  The codec itself is external to the repository; its mapping table is
reproduced here: bytes 0x00-0x7F map to the identical code points, and bytes
0x80-0xFF map to the code points listed below (Cyrillic letters, box-drawing
glyphs and a few symbols). -/

/-- Unicode code point assigned to each byte value by the CP866 codec. -/
def cp866_codepoints : List Nat :=
  (List.range 128) ++
  [0x410, 0x411, 0x412, 0x413, 0x414, 0x415, 0x416, 0x417,
   0x418, 0x419, 0x41a, 0x41b, 0x41c, 0x41d, 0x41e, 0x41f,
   0x420, 0x421, 0x422, 0x423, 0x424, 0x425, 0x426, 0x427,
   0x428, 0x429, 0x42a, 0x42b, 0x42c, 0x42d, 0x42e, 0x42f,
   0x430, 0x431, 0x432, 0x433, 0x434, 0x435, 0x436, 0x437,
   0x438, 0x439, 0x43a, 0x43b, 0x43c, 0x43d, 0x43e, 0x43f,
   0x2591, 0x2592, 0x2593, 0x2502, 0x2524, 0x2561, 0x2562, 0x2556,
   0x2555, 0x2563, 0x2551, 0x2557, 0x255d, 0x255c, 0x255b, 0x2510,
   0x2514, 0x2534, 0x252c, 0x251c, 0x2500, 0x253c, 0x255e, 0x255f,
   0x255a, 0x2554, 0x2569, 0x2566, 0x2560, 0x2550, 0x256c, 0x2567,
   0x2568, 0x2564, 0x2565, 0x2559, 0x2558, 0x2552, 0x2553, 0x256b,
   0x256a, 0x2518, 0x250c, 0x2588, 0x2584, 0x258c, 0x2590, 0x2580,
   0x440, 0x441, 0x442, 0x443, 0x444, 0x445, 0x446, 0x447,
   0x448, 0x449, 0x44a, 0x44b, 0x44c, 0x44d, 0x44e, 0x44f,
   0x401, 0x451, 0x404, 0x454, 0x407, 0x457, 0x40e, 0x45e,
   0xb0, 0x2219, 0xb7, 0x221a, 0x2116, 0xa4, 0x25a0, 0xa0]

/-- Character obtained by decoding one byte under CP866, the expression
bytes([i]).decode("cp866", errors="strict") of cp866.py.  The codec defines
all 256 byte values, so strict decoding never fails; byte values above 255
cannot occur in Python bytes objects. -/
def cp866Char (b : Nat) : Char :=
  Char.ofNat (cp866_codepoints.getD b 0)

/-! ## UTF-8 encoding and strict decoding

cp866.py round-trips each decoded character through UTF-8: the table entries
are UTF-8 byte strings, and cp866_to_utf8 concatenates them and decodes the
result with bytes.decode("utf-8") under strict error handling.  The encoder
and the strict decoder (which rejects overlong forms, surrogates and code
points above 0x10FFFF, as CPython does) are embedded here. -/

/-- UTF-8 encoding of one Unicode scalar value, the str.encode("utf-8") of a
single character. -/
def utf8Encode (c : Char) : List Nat :=
  if c.toNat < 0x80 then [c.toNat]
  else if c.toNat < 0x800 then [0xC0 + c.toNat / 64, 0x80 + c.toNat % 64]
  else if c.toNat < 0x10000 then
    [0xE0 + c.toNat / 4096, 0x80 + c.toNat / 64 % 64, 0x80 + c.toNat % 64]
  else
    [0xF0 + c.toNat / 262144, 0x80 + c.toNat / 4096 % 64, 0x80 + c.toNat / 64 % 64,
      0x80 + c.toNat % 64]

/-- Continuation byte test for UTF-8 (second and later bytes of a sequence). -/
def isUtf8Cont (b : Nat) : Bool := 0x80 ≤ b && b < 0xC0

/-- Strict UTF-8 decoding of a byte sequence, the bytes.decode("utf-8") of
cp866.py; none models the UnicodeDecodeError raised on malformed input.  A
lead byte in [0xC2, 0xDF] takes one continuation byte, [0xE0, 0xEF] two (with
the overlong check for 0xE0 and the surrogate check for 0xED), [0xF0, 0xF4]
three (with the overlong check for 0xF0 and the upper-bound check for 0xF4);
everything else is rejected.  The cases are split by how many bytes remain,
so a multi-byte sequence cut off by the end of input is rejected. -/
def utf8Decode : List Nat → Option (List Char)
  | [] => some []
  | [b1] =>
    if b1 < 0x80 then (utf8Decode ([] : List Nat)).map (fun cs => Char.ofNat b1 :: cs)
    else none
  | [b1, b2] =>
    if b1 < 0x80 then (utf8Decode [b2]).map (fun cs => Char.ofNat b1 :: cs)
    else if b1 < 0xC2 then none
    else if b1 < 0xE0 then
      if isUtf8Cont b2 then
        (utf8Decode ([] : List Nat)).map
          (fun cs => Char.ofNat ((b1 - 0xC0) * 64 + (b2 - 0x80)) :: cs)
      else none
    else none
  | [b1, b2, b3] =>
    if b1 < 0x80 then (utf8Decode [b2, b3]).map (fun cs => Char.ofNat b1 :: cs)
    else if b1 < 0xC2 then none
    else if b1 < 0xE0 then
      if isUtf8Cont b2 then
        (utf8Decode [b3]).map (fun cs => Char.ofNat ((b1 - 0xC0) * 64 + (b2 - 0x80)) :: cs)
      else none
    else if b1 < 0xF0 then
      if isUtf8Cont b2 ∧ isUtf8Cont b3 ∧ (b1 = 0xE0 → 0xA0 ≤ b2) ∧ (b1 = 0xED → b2 < 0xA0) then
        (utf8Decode ([] : List Nat)).map
          (fun cs => Char.ofNat ((b1 - 0xE0) * 4096 + (b2 - 0x80) * 64 + (b3 - 0x80)) :: cs)
      else none
    else none
  | b1 :: b2 :: b3 :: b4 :: t =>
    if b1 < 0x80 then (utf8Decode (b2 :: b3 :: b4 :: t)).map (fun cs => Char.ofNat b1 :: cs)
    else if b1 < 0xC2 then none
    else if b1 < 0xE0 then
      if isUtf8Cont b2 then
        (utf8Decode (b3 :: b4 :: t)).map
          (fun cs => Char.ofNat ((b1 - 0xC0) * 64 + (b2 - 0x80)) :: cs)
      else none
    else if b1 < 0xF0 then
      if isUtf8Cont b2 ∧ isUtf8Cont b3 ∧ (b1 = 0xE0 → 0xA0 ≤ b2) ∧ (b1 = 0xED → b2 < 0xA0) then
        (utf8Decode (b4 :: t)).map
          (fun cs => Char.ofNat ((b1 - 0xE0) * 4096 + (b2 - 0x80) * 64 + (b3 - 0x80)) :: cs)
      else none
    else if b1 < 0xF5 then
      if isUtf8Cont b2 ∧ isUtf8Cont b3 ∧ isUtf8Cont b4 ∧
          (b1 = 0xF0 → 0x90 ≤ b2) ∧ (b1 = 0xF4 → b2 < 0x90) then
        (utf8Decode t).map
          (fun cs => Char.ofNat
            ((b1 - 0xF0) * 262144 + (b2 - 0x80) * 4096 + (b3 - 0x80) * 64 + (b4 - 0x80)) :: cs)
      else none
    else none

/-- Entry i of the CP866 tuple of cp866.py: the UTF-8 bytes of the character
that byte i decodes to. -/
def CP866 (b : Nat) : List Nat := utf8Encode (cp866Char b)

/-- The function cp866_to_utf8 of cp866.py: concatenate the per-byte UTF-8
encodings and decode the whole buffer as UTF-8.  none models a propagated
UnicodeDecodeError (shown below to be unreachable). -/
def cp866_to_utf8 (data : List Nat) : Option (List Char) :=
  utf8Decode ((data.map CP866).flatten)

/-- The function cp866_to_utf8_fast of cp866.py: decode the buffer directly
with the CP866 codec, one character per byte.  The codec defines all 256 byte
values, so the strict decode is total. -/
def cp866_to_utf8_fast (data : List Nat) : List Char :=
  data.map cp866Char

/-! ## Byte rendering (render_byte_cp866 of __main__.py) -/

/-- The function render_byte_cp866 of __main__.py: control bytes (below 0x20,
or 0x7F) render as a period, anything else as its CP866 character.  The
Python function returns cp866_to_utf8(bytes([b])); the getD default models
the (unreachable) propagation of a decode error. -/
def render_byte_cp866 (b : Nat) : List Char :=
  if b < 0x20 ∨ b = 0x7F then ['.']
  else (cp866_to_utf8 [b]).getD []

/-- Single rendered character per byte; render_byte_cp866 always produces
exactly this one character (proved below). -/
def renderedByte (b : Nat) : Char :=
  if b < 0x20 ∨ b = 0x7F then '.' else cp866Char b

/-! ## The address regex _ADDR_RE

The pattern is anchored at the start, matches 4 hex digits, a colon and 4 hex
digits into group 1, and the dot-star-dollar tail into group 2.  A dot does
not match a newline, and the dollar also matches just before a newline that
ends the string, so group 2 is the remainder of the line, which must contain
no newline except possibly a single final one that is left out of the group. -/

/-- Group 2 of _ADDR_RE: the match of dot-star followed by dollar against the
text after the address field.  A dot matches anything but a newline and the
dollar also matches just before a newline that ends the string, so the match
succeeds on a newline-free text (group: the whole text) or on a newline-free
text followed by one final newline (group: the text without that newline). -/
def dotStarGroup (s : List Char) : Option (List Char) :=
  if '\n' ∈ s then
    if s.getLast? = some '\n' ∧ '\n' ∉ s.dropLast then some s.dropLast
    else none
  else some s

/-- Shape of the address field: exactly 4 hex digits, a colon, 4 hex digits. -/
def isAddrField : List Char → Bool
  | [a1, a2, a3, a4, c, b1, b2, b3, b4] =>
    isHexDigit a1 && isHexDigit a2 && isHexDigit a3 && isHexDigit a4 && c == ':' &&
    isHexDigit b1 && isHexDigit b2 && isHexDigit b3 && isHexDigit b4
  | _ => false

/-- Result of _ADDR_RE.match(line): the 9-character address field (group 1)
and the remainder of the line (group 2), or none when the line does not start
with a well-formed address field. -/
def addrMatch (line : List Char) : Option (List Char × List Char) :=
  if isAddrField (line.take 9) then
    match dotStarGroup (line.drop 9) with
    | some g => some (line.take 9, g)
    | none => none
  else none

/-! ## Token scanners (finditer over _BYTE_TOK_RE and _WORD_TOK_RE)

re.finditer yields the leftmost non-overlapping matches in order, resuming
after the end of each match.  A match of a 2-digit (resp. 4-digit) hex token
needs a word boundary on each side; since hex digits are word constituents,
the boundary before the token means the preceding character (if any) is not a
word constituent, and the boundary after it means the following character (if
any) is not a word constituent.  The scanners below walk the string carrying
the word-constituent status of the previous character (initially false, for
the start of the string) and the absolute position, and return the list of
(value, end position) pairs of the matches. -/

/-- Boundary after a token: the remaining text is empty or starts with a
character that is not a word constituent. -/
def boundaryOK : List Char → Bool
  | [] => true
  | c :: _ => !isWordChar c

/-- All matches of _BYTE_TOK_RE (a standalone 2-digit hex token) with their
end positions, in order; p is the word-constituent status of the character
before position n. -/
def scanB (p : Bool) (n : Nat) : List Char → List (Nat × Nat)
  | c1 :: c2 :: rest =>
    if !p && isHexDigit c1 && isHexDigit c2 && boundaryOK rest then
      (hexVal c1 * 16 + hexVal c2, n + 2) :: scanB true (n + 2) rest
    else
      scanB (isWordChar c1) (n + 1) (c2 :: rest)
  | _ => []

/-- All matches of _WORD_TOK_RE (a standalone 4-digit hex token) with their
end positions, in order. -/
def scanW (p : Bool) (n : Nat) : List Char → List (Nat × Nat)
  | c1 :: c2 :: c3 :: c4 :: rest =>
    if !p && isHexDigit c1 && isHexDigit c2 && isHexDigit c3 && isHexDigit c4 &&
        boundaryOK rest then
      (((hexVal c1 * 16 + hexVal c2) * 16 + hexVal c3) * 16 + hexVal c4, n + 4)
        :: scanW true (n + 4) rest
    else
      scanW (isWordChar c1) (n + 1) (c2 :: c3 :: c4 :: rest)
  | _ => []

/-! ## The line fixers of __main__.py -/

/-- Count of leading space characters of a string: the value
len(tail) - len(tail.lstrip(" ")).  Note lstrip(" ") strips the ASCII space
only. -/
def leadingSpaces : List Char → Nat
  | c :: rest => if c = ' ' then leadingSpaces rest + 1 else 0
  | [] => 0

/-- The padding rule shared by both fixers: the measured run of leading
spaces of the stale tail, replaced by 2 when that run is empty. -/
def padWidth (t : List Char) : Nat :=
  if leadingSpaces t < 1 then 2 else leadingSpaces t

/-- The function try_fix_byte_view_line of __main__.py.  The length check
len(it) < 16 is expressed as the 16th match (index 15) existing. -/
def try_fix_byte_view_line (line : List Char) : Option (List Char) :=
  match addrMatch line with
  | none => none
  | some (addr, rest) =>
    let it := scanB false 0 rest
    match it[15]? with
    | none => none
    | some tok16 =>
      let bytes16 := (it.take 16).map Prod.fst
      let split_pos := addr.length + tok16.2
      let t := line.drop split_pos
      let pad := if leadingSpaces t < 1 then 2 else leadingSpaces t
      some (line.take split_pos ++ List.replicate pad ' ' ++
        (bytes16.map render_byte_cp866).flatten)

/-- The function try_fix_word_view_line of __main__.py.  Each of the first 8
word values w contributes its low byte w mod 256 and then its high byte
(w div 256) mod 256, as lo = w AND 0xFF and hi = (w SHR 8) AND 0xFF do. -/
def try_fix_word_view_line (line : List Char) : Option (List Char) :=
  match addrMatch line with
  | none => none
  | some (addr, rest) =>
    let it := scanW false 0 rest
    match it[7]? with
    | none => none
    | some tok8 =>
      let bytes16 := (it.take 8).flatMap (fun t => [t.1 % 256, t.1 / 256 % 256])
      let split_pos := addr.length + tok8.2
      let t := line.drop split_pos
      let pad := if leadingSpaces t < 1 then 2 else leadingSpaces t
      some (line.take split_pos ++ List.replicate pad ' ' ++
        (bytes16.map render_byte_cp866).flatten)

/-! ## Screen patching (fix_screen_text of __main__.py) -/

/-- Terminator stripping inside fix_screen_text: a trailing CRLF (tested
first, as the endswith chain does) or a trailing LF is split off, anything
else is kept in the core. -/
def stripNewline (line : List Char) : List Char × List Char :=
  if line.getLast? = some '\n' then
    if line.dropLast.getLast? = some '\r' then (line.dropLast.dropLast, ['\r', '\n'])
    else (line.dropLast, ['\n'])
  else (line, [])

/-- The per-core dispatch try_fix_byte_view_line(core) or
try_fix_word_view_line(core) or core.  Both fixers return non-empty strings
when they match (the padding alone is non-empty), so the Python or-chain on
optional strings coincides with this option fallback. -/
def fixCore (core : List Char) : List Char :=
  match try_fix_byte_view_line core with
  | some f => f
  | none =>
    match try_fix_word_view_line core with
    | some f => f
    | none => core

/-- Python str.splitlines(keepends=True): split at every line-break
character, treating CRLF as a single break, and keep each break at the end of
its line; acc holds the current line in reverse. -/
def splitlinesAux : List Char → List Char → List (List Char)
  | [], acc => if acc.isEmpty then [] else [acc.reverse]
  | '\r' :: '\n' :: rest, acc => (acc.reverse ++ ['\r', '\n']) :: splitlinesAux rest []
  | c :: rest, acc =>
    if isLineBreak c then (acc.reverse ++ [c]) :: splitlinesAux rest []
    else splitlinesAux rest (c :: acc)

/-- str.splitlines(True) on a whole screen. -/
def splitlinesKeepends (s : List Char) : List (List Char) :=
  splitlinesAux s []

/-- One iteration of the loop body of fix_screen_text: strip the terminator,
fix the core, reattach the terminator. -/
def fixOne (l : List Char) : List Char :=
  let p := stripNewline l
  fixCore p.1 ++ p.2

/-- The function fix_screen_text of __main__.py. -/
def fix_screen_text (s : List Char) : List Char :=
  ((splitlinesKeepends s).map fixOne).flatten

/-! ## Structured views of the classifier, used to state the claims -/

/-- Byte-view parse of a line: the split position (end of the 16th byte token,
measured in the whole line) and the 16-byte run, when the byte layout
matches. -/
def byteViewParse (line : List Char) : Option (Nat × List Nat) :=
  match addrMatch line with
  | none => none
  | some (addr, rest) =>
    let it := scanB false 0 rest
    match it[15]? with
    | none => none
    | some tok16 => some (addr.length + tok16.2, (it.take 16).map Prod.fst)

/-- Word-view word values of a line: the split position (end of the 8th word
token) and the 8 word values, when the word layout matches. -/
def wordViewWords (line : List Char) : Option (Nat × List Nat) :=
  match addrMatch line with
  | none => none
  | some (addr, rest) =>
    let it := scanW false 0 rest
    match it[7]? with
    | none => none
    | some tok8 => some (addr.length + tok8.2, (it.take 8).map Prod.fst)

/-- Word-view parse of a line: the split position and the 16-byte run built
from the 8 word values in little-endian order (low byte first). -/
def wordViewParse (line : List Char) : Option (Nat × List Nat) :=
  match wordViewWords line with
  | none => none
  | some (sp, ws) => some (sp, ws.flatMap (fun w => [w % 256, w / 256 % 256]))

/-- Screens whose only line breaks are LF, or CR immediately followed by LF.
Used to state the terminator-preservation properties. -/
def goodBreaks : List Char → Bool
  | [] => true
  | '\r' :: '\n' :: rest => goodBreaks rest
  | c :: rest => (c == '\n' || !isLineBreak c) && goodBreaks rest

/-- A string with no line-break character at all (the interior of a line). -/
def breakFree (s : List Char) : Bool :=
  s.all (fun c => !isLineBreak c)

/-- Decidable side condition for the idempotence theorem: the core parses as
a byte-view line and the first byte of its byte run is not 0x20 (the one byte
that renders as a space and can therefore extend the measured padding run on
a second pass). -/
def byteFirstOK (core : List Char) : Bool :=
  match byteViewParse core with
  | some (_, bs) => bs.head? != some 0x20
  | none => false

/-! ## Concrete screen fragments used to evaluate the theorems -/

/-- Scenario B of the specification: a word-view dump line. -/
def scenarioB : List Char :=
  "0000:0500  0000 2020 0000 0000 0000 0000 0000 0000  .... ....".toList

/-- Scenario A of the specification: a byte-view dump line whose first byte
0x8A is a printable CP866 Cyrillic letter. -/
def scenarioA : List Char :=
  "0000:0000  8A 10 00 00 00 00 00 00 00 00 00 00 00 00 00 00  ........".toList

/-- A byte-view dump line whose first byte is 0x20; its reconstructed tail
begins with a space, which a second patching pass absorbs into the measured
padding run. -/
def spaceFirstLine : List Char :=
  "0000:0000  20 41 41 41 41 41 41 41 41 41 41 41 41 41 41 41".toList

/-- A screen whose dump line carries a lone CR before the final LF; the CR is
a line break for splitlines but is not one of the two terminators the patcher
strips, so patching destroys it. -/
def loneCRScreen : List Char :=
  ("0000:0000  41 41 41 41 41 41 41 41 41 41 41 41 41 41 41 41\rZ\n").toList

/-- A well-terminated screen with one status line and one byte-view dump line
(first byte 0x8A), satisfying the stability conditions of the idempotence
theorem. -/
def stableScreen : List Char :=
  ("HELLO WORLD\n" ++
   "0000:0000  8A 10 00 00 00 00 00 00 00 00 00 00 00 00 00 00  ........\n").toList

/-- A well-terminated screen mixing a CRLF status line, a word-view dump line
and an unterminated final line. -/
def mixedScreen : List Char :=
  ("REG EAX=00000000\r\n" ++
   "0000:0500  0000 2020 0000 0000 0000 0000 0000 0000  .... ....\n" ++
   ":BPX 1234").toList

/-- A line with an address field but too few hex tokens for either layout. -/
def shortLine : List Char := "F000:1234  41 41".toList

/-! ## Facts about the code page and the UTF-8 round trip -/

/-- UTF-8 encoding of any scalar value is non-empty. -/
theorem utf8Encode_ne_nil (c : Char) : utf8Encode c ≠ [] := by
  unfold utf8Encode
  split
  · simp
  · split
    · simp
    · split <;> simp

/-- Decoding steps off an ASCII byte. -/
theorem utf8Decode_step1 (b : Nat) (t : List Nat) (h : b < 0x80) :
    utf8Decode (b :: t) = (utf8Decode t).map (fun cs => Char.ofNat b :: cs) := by
  match t with
  | [] => simp only [utf8Decode]; rw [if_pos h]
  | [x] => simp only [utf8Decode]; rw [if_pos h]
  | [x, y] => simp only [utf8Decode]; rw [if_pos h]
  | x :: y :: z :: t => simp only [utf8Decode]; rw [if_pos h]

/-- Decoding steps off a well-formed 2-byte sequence. -/
theorem utf8Decode_step2 (b1 b2 : Nat) (t : List Nat) (h1 : 0xC2 ≤ b1) (h2 : b1 < 0xE0)
    (h3 : isUtf8Cont b2 = true) :
    utf8Decode (b1 :: b2 :: t) =
      (utf8Decode t).map (fun cs => Char.ofNat ((b1 - 0xC0) * 64 + (b2 - 0x80)) :: cs) := by
  have hn1 : ¬ b1 < 0x80 := by omega
  have hn2 : ¬ b1 < 0xC2 := by omega
  match t with
  | [] => simp only [utf8Decode]; rw [if_neg hn1, if_neg hn2, if_pos h2, if_pos h3]
  | [x] => simp only [utf8Decode]; rw [if_neg hn1, if_neg hn2, if_pos h2, if_pos h3]
  | x :: y :: t => simp only [utf8Decode]; rw [if_neg hn1, if_neg hn2, if_pos h2, if_pos h3]

/-- Decoding steps off a well-formed 3-byte sequence. -/
theorem utf8Decode_step3 (b1 b2 b3 : Nat) (t : List Nat) (h1 : 0xE0 ≤ b1) (h2 : b1 < 0xF0)
    (hc : isUtf8Cont b2 = true ∧ isUtf8Cont b3 = true ∧
      (b1 = 0xE0 → 0xA0 ≤ b2) ∧ (b1 = 0xED → b2 < 0xA0)) :
    utf8Decode (b1 :: b2 :: b3 :: t) =
      (utf8Decode t).map
        (fun cs => Char.ofNat ((b1 - 0xE0) * 4096 + (b2 - 0x80) * 64 + (b3 - 0x80)) :: cs) := by
  have hn1 : ¬ b1 < 0x80 := by omega
  have hn2 : ¬ b1 < 0xC2 := by omega
  have hn3 : ¬ b1 < 0xE0 := by omega
  match t with
  | [] => simp only [utf8Decode]; rw [if_neg hn1, if_neg hn2, if_neg hn3, if_pos h2, if_pos hc]
  | x :: t => simp only [utf8Decode]; rw [if_neg hn1, if_neg hn2, if_neg hn3, if_pos h2, if_pos hc]

/-- Decoding steps off a well-formed 4-byte sequence. -/
theorem utf8Decode_step4 (b1 b2 b3 b4 : Nat) (t : List Nat) (h1 : 0xF0 ≤ b1) (h2 : b1 < 0xF5)
    (hc : isUtf8Cont b2 = true ∧ isUtf8Cont b3 = true ∧ isUtf8Cont b4 = true ∧
      (b1 = 0xF0 → 0x90 ≤ b2) ∧ (b1 = 0xF4 → b2 < 0x90)) :
    utf8Decode (b1 :: b2 :: b3 :: b4 :: t) =
      (utf8Decode t).map
        (fun cs => Char.ofNat
          ((b1 - 0xF0) * 262144 + (b2 - 0x80) * 4096 + (b3 - 0x80) * 64 + (b4 - 0x80)) :: cs) := by
  have hn1 : ¬ b1 < 0x80 := by omega
  have hn2 : ¬ b1 < 0xC2 := by omega
  have hn3 : ¬ b1 < 0xE0 := by omega
  have hn4 : ¬ b1 < 0xF0 := by omega
  simp only [utf8Decode]
  rw [if_neg hn1, if_neg hn2, if_neg hn3, if_neg hn4, if_pos h2, if_pos hc]

/-- Strict UTF-8 decoding undoes the encoding of any valid scalar value, one
character at a time. -/
theorem utf8Encode_decode (c : Char) (rest : List Nat) :
    utf8Decode (utf8Encode c ++ rest) = (utf8Decode rest).map (fun cs => c :: cs) := by
  have hvalid : c.toNat < 0xd800 ∨ (0xdfff < c.toNat ∧ c.toNat < 0x110000) := c.valid
  have hofnat : Char.ofNat c.toNat = c := Char.ofNat_toNat c
  unfold utf8Encode
  rcases Nat.lt_or_ge c.toNat 0x80 with h1 | h1
  · rw [if_pos h1]
    simp only [List.cons_append, List.nil_append]
    rw [utf8Decode_step1 _ _ h1, hofnat]
  · rw [if_neg (by omega)]
    rcases Nat.lt_or_ge c.toNat 0x800 with h2 | h2
    · rw [if_pos h2]
      simp only [List.cons_append, List.nil_append]
      rw [utf8Decode_step2 _ _ _ (by omega) (by omega)
        (by simp only [isUtf8Cont, Bool.and_eq_true, decide_eq_true_eq]; omega)]
      have hval : (0xC0 + c.toNat / 64 - 0xC0) * 64 + (0x80 + c.toNat % 64 - 0x80)
          = c.toNat := by omega
      rw [hval, hofnat]
    · rw [if_neg (by omega)]
      rcases Nat.lt_or_ge c.toNat 0x10000 with h3 | h3
      · rw [if_pos h3]
        simp only [List.cons_append, List.nil_append]
        rw [utf8Decode_step3 _ _ _ _ (by omega) (by omega)
          (by refine ⟨?_, ?_, ?_, ?_⟩ <;>
            (try simp only [isUtf8Cont, Bool.and_eq_true, decide_eq_true_eq]) <;> omega)]
        have hval : (0xE0 + c.toNat / 4096 - 0xE0) * 4096 +
            (0x80 + c.toNat / 64 % 64 - 0x80) * 64 + (0x80 + c.toNat % 64 - 0x80)
            = c.toNat := by omega
        rw [hval, hofnat]
      · rw [if_neg (by omega)]
        simp only [List.cons_append, List.nil_append]
        rw [utf8Decode_step4 _ _ _ _ _ (by omega) (by omega)
          (by refine ⟨?_, ?_, ?_, ?_, ?_⟩ <;>
            (try simp only [isUtf8Cont, Bool.and_eq_true, decide_eq_true_eq]) <;> omega)]
        have hval : (0xF0 + c.toNat / 262144 - 0xF0) * 262144 +
            (0x80 + c.toNat / 4096 % 64 - 0x80) * 4096 +
            (0x80 + c.toNat / 64 % 64 - 0x80) * 64 + (0x80 + c.toNat % 64 - 0x80)
            = c.toNat := by omega
        rw [hval, hofnat]

/-- The per-byte UTF-8 detour of cp866_to_utf8 always succeeds and agrees
with the direct per-byte table decode. -/
theorem cp866_to_utf8_eq_some (data : List Nat) :
    cp866_to_utf8 data = some (cp866_to_utf8_fast data) := by
  induction data with
  | nil => rfl
  | cons b t ih =>
    simp only [cp866_to_utf8, cp866_to_utf8_fast, List.map_cons, List.flatten_cons,
      CP866] at *
    rw [utf8Encode_decode, ih]
    rfl

/-- render_byte_cp866 always yields exactly one character, the one computed
by renderedByte. -/
theorem render_byte_cp866_eq (b : Nat) : render_byte_cp866 b = [renderedByte b] := by
  unfold render_byte_cp866 renderedByte
  by_cases h : b < 0x20 ∨ b = 0x7F
  · rw [if_pos h, if_pos h]
  · rw [if_neg h, if_neg h, cp866_to_utf8_eq_some]
    rfl

/-- Joining the per-byte renderings gives one character per byte. -/
theorem flatten_map_render (bs : List Nat) :
    (bs.map render_byte_cp866).flatten = bs.map renderedByte := by
  induction bs with
  | nil => rfl
  | cons b t ih => simp [render_byte_cp866_eq, ih]

/-- Lookups beyond the 256 table entries fall back to the getD default; such
byte values cannot occur in Python bytes objects. -/
theorem cp866Char_of_ge (b : Nat) (h : 256 ≤ b) : cp866Char b = Char.ofNat 0 := by
  unfold cp866Char
  rw [List.getD_eq_default]
  have : cp866_codepoints.length = 256 := by decide
  omega

/-- A rendered byte is never a space unless the byte itself is 0x20: the
control bytes render as a period and the CP866 table maps only index 0x20 to
the space character. -/
theorem renderedByte_ne_space (b : Nat) (h : b ≠ 0x20) : renderedByte b ≠ ' ' := by
  by_cases hb : b < 256
  · have key : ∀ x : Fin 256, x.val ≠ 0x20 → renderedByte x.val ≠ ' ' := by decide
    exact key ⟨b, hb⟩ h
  · unfold renderedByte
    rw [if_neg (by omega), cp866Char_of_ge b (by omega)]
    decide

/-- A rendered byte is never a line-break character: control bytes (which
include all ASCII breaks) render as a period, and no CP866 code point of a
printable byte is a Unicode line break. -/
theorem renderedByte_not_break (b : Nat) : isLineBreak (renderedByte b) = false := by
  by_cases hb : b < 256
  · have key : ∀ x : Fin 256, isLineBreak (renderedByte x.val) = false := by decide
    exact key ⟨b, hb⟩
  · unfold renderedByte
    rw [if_neg (by omega), cp866Char_of_ge b (by omega)]
    decide

/-- A rendered byte is in particular never a newline, so a patched line still
matches the dot-star-dollar tail of the address regex. -/
theorem renderedByte_ne_newline (b : Nat) : renderedByte b ≠ '\n' := by
  intro h
  have := renderedByte_not_break b
  rw [h] at this
  simp [isLineBreak] at this

/-- C8.  For every byte value b in 0-255, the Codepage Decoder returns a
non-empty representation of b: the table has 256 entries, entry b (the UTF-8
encoding of the decoded character) is non-empty, and decoding the single byte
b succeeds, producing exactly the table character. -/
theorem cp866_table_total (b : Nat) (h : b < 256) :
    cp866_codepoints.length = 256 ∧ CP866 b ≠ [] ∧
      cp866_to_utf8 [b] = some [cp866Char b] :=
  ⟨by decide, utf8Encode_ne_nil _, cp866_to_utf8_eq_some [b]⟩

/-- Witness for C8 at byte 0x41. -/
theorem cp866_table_total_witness :
    cp866_codepoints.length = 256 ∧ CP866 0x41 ≠ [] ∧
      cp866_to_utf8 [0x41] = some ['A'] :=
  cp866_table_total 0x41 (by decide)

/-- C9.  Decoding a byte buffer one byte at a time through the codepage table
and concatenating (cp866_to_utf8) produces the same text as decoding the
whole buffer in one run (cp866_to_utf8_fast), for every byte sequence. -/
theorem cp866_decoders_agree (data : List Nat) (h : ∀ b ∈ data, b < 256) :
    cp866_to_utf8 data = some (cp866_to_utf8_fast data) :=
  cp866_to_utf8_eq_some data

/-- Witness for C9 on the buffer 8A 10 41. -/
theorem cp866_decoders_agree_witness :
    cp866_to_utf8 [0x8A, 0x10, 0x41] = some (cp866_to_utf8_fast [0x8A, 0x10, 0x41]) ∧
      cp866_to_utf8_fast [0x8A, 0x10, 0x41] = ['К', '\x10', 'A'] :=
  ⟨cp866_decoders_agree [0x8A, 0x10, 0x41] (by decide), by decide⟩

/-- C10.  cp866_to_utf8 never fails on byte input: the code page covers all
256 byte values, so the strict-decode failure branch is unreachable. -/
theorem cp866_to_utf8_never_fails (data : List Nat) (h : ∀ b ∈ data, b < 256) :
    (cp866_to_utf8 data).isSome = true := by
  rw [cp866_to_utf8_eq_some data]
  rfl

/-- Witness for C10 on the buffer FF 00 7F. -/
theorem cp866_to_utf8_never_fails_witness :
    (cp866_to_utf8 [0xFF, 0x00, 0x7F]).isSome = true :=
  cp866_to_utf8_never_fails [0xFF, 0x00, 0x7F] (by decide)

/-- C3.  A byte below 0x20 or equal to 0x7F renders as a literal period even
though the code page maps it to a different character; every other byte value
renders as its single CP866 character. -/
theorem control_bytes_render_as_period (b : Nat) (h : b < 256) :
    ((b < 0x20 ∨ b = 0x7F) → render_byte_cp866 b = ['.'] ∧ cp866Char b ≠ '.') ∧
    (¬(b < 0x20 ∨ b = 0x7F) → render_byte_cp866 b = [cp866Char b]) := by
  have key : ∀ x : Fin 256, (x.val < 0x20 ∨ x.val = 0x7F) → cp866Char x.val ≠ '.' := by
    decide
  constructor
  · intro hc
    refine ⟨?_, key ⟨b, h⟩ hc⟩
    rw [render_byte_cp866_eq]
    unfold renderedByte
    rw [if_pos hc]
  · intro hc
    rw [render_byte_cp866_eq]
    unfold renderedByte
    rw [if_neg hc]

/-- Witness for C3 at the control byte 0x10. -/
theorem control_bytes_render_as_period_witness :
    render_byte_cp866 0x10 = ['.'] ∧ cp866Char 0x10 ≠ '.' :=
  (control_bytes_render_as_period 0x10 (by decide)).1 (Or.inl (by decide))

/-! ## Facts about the token scanners -/

/-- The value of a hexadecimal digit is below 16. -/
theorem hexVal_lt (c : Char) (h : isHexDigit c = true) : hexVal c < 16 := by
  unfold isHexDigit at h
  simp only [Bool.or_eq_true, Bool.and_eq_true, decide_eq_true_eq] at h
  unfold hexVal
  rcases h with (⟨h1, h2⟩ | ⟨h1, h2⟩) | ⟨h1, h2⟩
  · rw [if_pos (by simp only [Bool.and_eq_true, decide_eq_true_eq]; omega)]
    omega
  · rw [if_neg (by simp only [Bool.and_eq_true, decide_eq_true_eq]; omega),
      if_pos (by simp only [Bool.and_eq_true, decide_eq_true_eq]; omega)]
    omega
  · rw [if_neg (by simp only [Bool.and_eq_true, decide_eq_true_eq]; omega),
      if_neg (by simp only [Bool.and_eq_true, decide_eq_true_eq]; omega)]
    omega

/-- Hexadecimal digits are word constituents. -/
theorem isWordChar_of_isHexDigit (c : Char) (h : isHexDigit c = true) :
    isWordChar c = true := by
  unfold isHexDigit at h
  unfold isWordChar
  simp only [Bool.or_eq_true, Bool.and_eq_true, decide_eq_true_eq] at h ⊢
  rcases h with (⟨h1, h2⟩ | ⟨h1, h2⟩) | ⟨h1, h2⟩
  · exact Or.inl (Or.inl (Or.inl (Or.inl ⟨h1, h2⟩)))
  · exact Or.inl (Or.inl (Or.inl (Or.inr ⟨h1, by omega⟩)))
  · exact Or.inl (Or.inl (Or.inr ⟨h1, by omega⟩))

/-- Every byte-token match ends at least two characters after the scan start. -/
theorem scanB_ends_lb (p : Bool) (n : Nat) (s : List Char) :
    ∀ x ∈ scanB p n s, n + 2 ≤ x.2 := by
  induction p, n, s using scanB.induct with
  | case1 p n c1 c2 rest hcond ih =>
    intro x hx
    rw [scanB, if_pos hcond] at hx
    rcases List.mem_cons.1 hx with rfl | hx
    · omega
    · have := ih x hx
      omega
  | case2 p n c1 c2 rest hcond ih =>
    intro x hx
    rw [scanB, if_neg hcond] at hx
    have := ih x hx
    omega
  | case3 t p n hne =>
    intro x hx
    rcases t with _ | ⟨c1, _ | ⟨c2, rest⟩⟩
    · simp [scanB] at hx
    · simp [scanB] at hx
    · exact absurd rfl (hne c1 c2 rest)

/-- Every byte-token match ends within the scanned text. -/
theorem scanB_ends_le (p : Bool) (n : Nat) (s : List Char) :
    ∀ x ∈ scanB p n s, x.2 ≤ n + s.length := by
  induction p, n, s using scanB.induct with
  | case1 p n c1 c2 rest hcond ih =>
    intro x hx
    rw [scanB, if_pos hcond] at hx
    rcases List.mem_cons.1 hx with rfl | hx
    · simp only [List.length_cons]
      omega
    · have := ih x hx
      simp only [List.length_cons]
      omega
  | case2 p n c1 c2 rest hcond ih =>
    intro x hx
    rw [scanB, if_neg hcond] at hx
    have := ih x hx
    simp only [List.length_cons] at *
    omega
  | case3 t p n hne =>
    intro x hx
    rcases t with _ | ⟨c1, _ | ⟨c2, rest⟩⟩
    · simp [scanB] at hx
    · simp [scanB] at hx
    · exact absurd rfl (hne c1 c2 rest)

/-- Every byte-token value is a byte: two hexadecimal digits are below 256. -/
theorem scanB_val_lt (p : Bool) (n : Nat) (s : List Char) :
    ∀ x ∈ scanB p n s, x.1 < 256 := by
  induction p, n, s using scanB.induct with
  | case1 p n c1 c2 rest hcond ih =>
    intro x hx
    rw [scanB, if_pos hcond] at hx
    simp only [Bool.and_eq_true] at hcond
    obtain ⟨⟨⟨-, h1⟩, h2⟩, -⟩ := hcond
    rcases List.mem_cons.1 hx with rfl | hx
    · have v1 := hexVal_lt c1 h1
      have v2 := hexVal_lt c2 h2
      simp only []
      omega
    · exact ih x hx
  | case2 p n c1 c2 rest hcond ih =>
    intro x hx
    rw [scanB, if_neg hcond] at hx
    exact ih x hx
  | case3 t p n hne =>
    intro x hx
    rcases t with _ | ⟨c1, _ | ⟨c2, rest⟩⟩
    · simp [scanB] at hx
    · simp [scanB] at hx
    · exact absurd rfl (hne c1 c2 rest)

/-- After the end of every byte-token match the boundary condition holds:
what remains of the scanned text is empty or starts with a non-word
character. -/
theorem scanB_boundary (p : Bool) (n : Nat) (s : List Char) :
    ∀ x ∈ scanB p n s, boundaryOK (s.drop (x.2 - n)) = true := by
  induction p, n, s using scanB.induct with
  | case1 p n c1 c2 rest hcond ih =>
    intro x hx
    rw [scanB, if_pos hcond] at hx
    simp only [Bool.and_eq_true] at hcond
    rcases List.mem_cons.1 hx with rfl | hx
    · simp only []
      have h2 : n + 2 - n = 2 := by omega
      rw [h2]
      simpa using hcond.2
    · have hlb := scanB_ends_lb _ _ _ x hx
      have := ih x hx
      have harith : x.2 - n = (x.2 - (n + 2)) + 1 + 1 := by omega
      rw [harith, List.drop_succ_cons, List.drop_succ_cons]
      exact this
  | case2 p n c1 c2 rest hcond ih =>
    intro x hx
    rw [scanB, if_neg hcond] at hx
    have hlb := scanB_ends_lb _ _ _ x hx
    have := ih x hx
    have harith : x.2 - n = (x.2 - (n + 1)) + 1 := by omega
    rw [harith, List.drop_succ_cons]
    exact this
  | case3 t p n hne =>
    intro x hx
    rcases t with _ | ⟨c1, _ | ⟨c2, rest⟩⟩
    · simp [scanB] at hx
    · simp [scanB] at hx
    · exact absurd rfl (hne c1 c2 rest)

/-- The end positions of the byte-token matches are strictly increasing. -/
theorem scanB_pairwise (p : Bool) (n : Nat) (s : List Char) :
    (scanB p n s).Pairwise (fun a b => a.2 < b.2) := by
  induction p, n, s using scanB.induct with
  | case1 p n c1 c2 rest hcond ih =>
    rw [scanB, if_pos hcond]
    refine List.Pairwise.cons ?_ ih
    intro y hy
    have := scanB_ends_lb _ _ _ y hy
    simp only []
    omega
  | case2 p n c1 c2 rest hcond ih =>
    rw [scanB, if_neg hcond]
    exact ih
  | case3 t p n hne =>
    rcases t with _ | ⟨c1, _ | ⟨c2, rest⟩⟩
    · simp [scanB]
    · simp [scanB]
    · exact absurd rfl (hne c1 c2 rest)

/-- Every word-token match ends at least four characters after the scan start. -/
theorem scanW_ends_lb (p : Bool) (n : Nat) (s : List Char) :
    ∀ x ∈ scanW p n s, n + 4 ≤ x.2 := by
  induction p, n, s using scanW.induct with
  | case1 p n c1 c2 c3 c4 rest hcond ih =>
    intro x hx
    rw [scanW, if_pos hcond] at hx
    rcases List.mem_cons.1 hx with rfl | hx
    · omega
    · have := ih x hx
      omega
  | case2 p n c1 c2 c3 c4 rest hcond ih =>
    intro x hx
    rw [scanW, if_neg hcond] at hx
    have := ih x hx
    omega
  | case3 t p n hne =>
    intro x hx
    rcases t with _ | ⟨c1, _ | ⟨c2, _ | ⟨c3, _ | ⟨c4, rest⟩⟩⟩⟩
    · simp [scanW] at hx
    · simp [scanW] at hx
    · simp [scanW] at hx
    · simp [scanW] at hx
    · exact absurd rfl (hne c1 c2 c3 c4 rest)

/-- Every word-token match ends within the scanned text. -/
theorem scanW_ends_le (p : Bool) (n : Nat) (s : List Char) :
    ∀ x ∈ scanW p n s, x.2 ≤ n + s.length := by
  induction p, n, s using scanW.induct with
  | case1 p n c1 c2 c3 c4 rest hcond ih =>
    intro x hx
    rw [scanW, if_pos hcond] at hx
    rcases List.mem_cons.1 hx with rfl | hx
    · simp only [List.length_cons]
      omega
    · have := ih x hx
      simp only [List.length_cons]
      omega
  | case2 p n c1 c2 c3 c4 rest hcond ih =>
    intro x hx
    rw [scanW, if_neg hcond] at hx
    have := ih x hx
    simp only [List.length_cons] at *
    omega
  | case3 t p n hne =>
    intro x hx
    rcases t with _ | ⟨c1, _ | ⟨c2, _ | ⟨c3, _ | ⟨c4, rest⟩⟩⟩⟩
    · simp [scanW] at hx
    · simp [scanW] at hx
    · simp [scanW] at hx
    · simp [scanW] at hx
    · exact absurd rfl (hne c1 c2 c3 c4 rest)

/-- Every word-token value fits in 16 bits: four hexadecimal digits are below
65536. -/
theorem scanW_val_lt (p : Bool) (n : Nat) (s : List Char) :
    ∀ x ∈ scanW p n s, x.1 < 65536 := by
  induction p, n, s using scanW.induct with
  | case1 p n c1 c2 c3 c4 rest hcond ih =>
    intro x hx
    rw [scanW, if_pos hcond] at hx
    simp only [Bool.and_eq_true] at hcond
    obtain ⟨⟨⟨⟨⟨-, h1⟩, h2⟩, h3⟩, h4⟩, -⟩ := hcond
    rcases List.mem_cons.1 hx with rfl | hx
    · have v1 := hexVal_lt c1 h1
      have v2 := hexVal_lt c2 h2
      have v3 := hexVal_lt c3 h3
      have v4 := hexVal_lt c4 h4
      simp only []
      omega
    · exact ih x hx
  | case2 p n c1 c2 c3 c4 rest hcond ih =>
    intro x hx
    rw [scanW, if_neg hcond] at hx
    exact ih x hx
  | case3 t p n hne =>
    intro x hx
    rcases t with _ | ⟨c1, _ | ⟨c2, _ | ⟨c3, _ | ⟨c4, rest⟩⟩⟩⟩
    · simp [scanW] at hx
    · simp [scanW] at hx
    · simp [scanW] at hx
    · simp [scanW] at hx
    · exact absurd rfl (hne c1 c2 c3 c4 rest)

/-- After the end of every word-token match the boundary condition holds. -/
theorem scanW_boundary (p : Bool) (n : Nat) (s : List Char) :
    ∀ x ∈ scanW p n s, boundaryOK (s.drop (x.2 - n)) = true := by
  induction p, n, s using scanW.induct with
  | case1 p n c1 c2 c3 c4 rest hcond ih =>
    intro x hx
    rw [scanW, if_pos hcond] at hx
    simp only [Bool.and_eq_true] at hcond
    rcases List.mem_cons.1 hx with rfl | hx
    · simp only []
      have h4 : n + 4 - n = 4 := by omega
      rw [h4]
      simpa using hcond.2
    · have hlb := scanW_ends_lb _ _ _ x hx
      have := ih x hx
      have harith : x.2 - n = (x.2 - (n + 4)) + 1 + 1 + 1 + 1 := by omega
      rw [harith, List.drop_succ_cons, List.drop_succ_cons, List.drop_succ_cons,
        List.drop_succ_cons]
      exact this
  | case2 p n c1 c2 c3 c4 rest hcond ih =>
    intro x hx
    rw [scanW, if_neg hcond] at hx
    have hlb := scanW_ends_lb _ _ _ x hx
    have := ih x hx
    have harith : x.2 - n = (x.2 - (n + 1)) + 1 := by omega
    rw [harith, List.drop_succ_cons]
    exact this
  | case3 t p n hne =>
    intro x hx
    rcases t with _ | ⟨c1, _ | ⟨c2, _ | ⟨c3, _ | ⟨c4, rest⟩⟩⟩⟩
    · simp [scanW] at hx
    · simp [scanW] at hx
    · simp [scanW] at hx
    · simp [scanW] at hx
    · exact absurd rfl (hne c1 c2 c3 c4 rest)

/-- The end positions of the word-token matches are strictly increasing. -/
theorem scanW_pairwise (p : Bool) (n : Nat) (s : List Char) :
    (scanW p n s).Pairwise (fun a b => a.2 < b.2) := by
  induction p, n, s using scanW.induct with
  | case1 p n c1 c2 c3 c4 rest hcond ih =>
    rw [scanW, if_pos hcond]
    refine List.Pairwise.cons ?_ ih
    intro y hy
    have := scanW_ends_lb _ _ _ y hy
    simp only []
    omega
  | case2 p n c1 c2 c3 c4 rest hcond ih =>
    rw [scanW, if_neg hcond]
    exact ih
  | case3 t p n hne =>
    rcases t with _ | ⟨c1, _ | ⟨c2, _ | ⟨c3, _ | ⟨c4, rest⟩⟩⟩⟩
    · simp [scanW]
    · simp [scanW]
    · simp [scanW]
    · simp [scanW]
    · exact absurd rfl (hne c1 c2 c3 c4 rest)

/-! ## Prefix stability of the scanners

The refixing analysis needs: changing the text after the end of the last
consumed token, while preserving the word-boundary class of the first changed
character, does not change the tokens that end up to that point. -/

/-- Membership from an index lookup. -/
theorem mem_of_getElem_some {α : Type} {l : List α} {k : Nat} {x : α}
    (h : l[k]? = some x) : x ∈ l := by
  obtain ⟨hk, rfl⟩ := List.getElem?_eq_some.1 h
  exact List.getElem_mem hk

/-- takeWhile by an end-position bound is empty when every element ends past
the bound. -/
theorem takeWhile_nil_of_gt (l : List (Nat × Nat)) (m : Nat) (h : ∀ x ∈ l, m < x.2) :
    l.takeWhile (fun y => y.2 ≤ m) = [] := by
  cases l with
  | nil => rfl
  | cons y t =>
    apply List.takeWhile_cons_of_neg
    simp only [decide_eq_true_eq]
    have := h y (List.mem_cons_self y t)
    omega

/-- On a list with strictly increasing end positions, taking while the end
position stays at or below that of element k is exactly taking k+1 elements. -/
theorem takeWhile_eq_take_of_pairwise (l : List (Nat × Nat)) (k : Nat) (x : Nat × Nat)
    (hp : l.Pairwise (fun a b => a.2 < b.2)) (hg : l[k]? = some x) :
    l.takeWhile (fun y => y.2 ≤ x.2) = l.take (k + 1) := by
  induction l generalizing k with
  | nil => simp at hg
  | cons y t ih =>
    rcases List.pairwise_cons.1 hp with ⟨hy, hp2⟩
    cases k with
    | zero =>
      have hxy : y = x := by simpa using hg
      subst hxy
      rw [List.takeWhile_cons_of_pos (by simp)]
      rw [takeWhile_nil_of_gt t y.2 hy]
      simp
    | succ k =>
      have hgt : t[k]? = some x := by simpa using hg
      have hxy : y.2 < x.2 := hy x (mem_of_getElem_some hgt)
      rw [List.takeWhile_cons_of_pos (by simp only [decide_eq_true_eq]; omega),
        ih k hp2 hgt, List.take_succ_cons]

/-- Byte-scan congruence: scans of A ++ T and A ++ Tp agree on all tokens
ending within A, provided T and Tp have the same boundary class. -/
theorem scanB_takeWhile_congr :
    ∀ (N : Nat) (A : List Char), A.length ≤ N →
      ∀ (p : Bool) (n e : Nat) (T Tp : List Char), e = n + A.length →
        boundaryOK T = boundaryOK Tp →
        (scanB p n (A ++ T)).takeWhile (fun x => x.2 ≤ e)
          = (scanB p n (A ++ Tp)).takeWhile (fun x => x.2 ≤ e) := by
  intro N
  induction N with
  | zero =>
    intro A hA p n e T Tp he hb
    have hAnil : A = [] := List.length_eq_zero.1 (Nat.le_zero.1 hA)
    subst hAnil
    simp only [List.nil_append, List.length_nil, Nat.add_zero] at he ⊢
    subst he
    rw [takeWhile_nil_of_gt _ _ (fun x hx => by have := scanB_ends_lb _ _ _ x hx; omega),
      takeWhile_nil_of_gt _ _ (fun x hx => by have := scanB_ends_lb _ _ _ x hx; omega)]
  | succ N ih =>
    intro A hA p n e T Tp he hb
    match A with
    | [] =>
      simp only [List.nil_append, List.length_nil, Nat.add_zero] at he ⊢
      subst he
      rw [takeWhile_nil_of_gt _ _ (fun x hx => by have := scanB_ends_lb _ _ _ x hx; omega),
        takeWhile_nil_of_gt _ _ (fun x hx => by have := scanB_ends_lb _ _ _ x hx; omega)]
    | [a] =>
      have he1 : e = n + 1 := by simpa using he
      subst he1
      simp only [List.cons_append, List.nil_append]
      rw [takeWhile_nil_of_gt _ _ (fun x hx => by have := scanB_ends_lb _ _ _ x hx; omega),
        takeWhile_nil_of_gt _ _ (fun x hx => by have := scanB_ends_lb _ _ _ x hx; omega)]
    | a1 :: a2 :: A2 =>
      have hbokeq : boundaryOK (A2 ++ T) = boundaryOK (A2 ++ Tp) := by
        cases A2 with
        | nil => simpa using hb
        | cons a3 A3 => rfl
      have hlen : A2.length ≤ N := by
        simp only [List.length_cons] at hA
        omega
      have he2 : e = (n + 2) + A2.length := by
        simp only [List.length_cons] at he
        omega
      simp only [List.cons_append]
      by_cases hcond : (!p && isHexDigit a1 && isHexDigit a2 && boundaryOK (A2 ++ T)) = true
      · have hcond2 : (!p && isHexDigit a1 && isHexDigit a2 && boundaryOK (A2 ++ Tp)) = true := by
          rw [← hbokeq]
          exact hcond
        rw [scanB, if_pos hcond, scanB, if_pos hcond2]
        rw [List.takeWhile_cons_of_pos (by simp only [decide_eq_true_eq]; omega),
          List.takeWhile_cons_of_pos (by simp only [decide_eq_true_eq]; omega)]
        exact congrArg _ (ih A2 hlen true (n + 2) e T Tp he2 hb)
      · have hcond2 : ¬ (!p && isHexDigit a1 && isHexDigit a2 && boundaryOK (A2 ++ Tp)) = true := by
          rw [← hbokeq]
          exact hcond
        rw [scanB, if_neg hcond, scanB, if_neg hcond2]
        have he3 : e = (n + 1) + (a2 :: A2).length := by
          simp only [List.length_cons] at he ⊢
          omega
        have hlen2 : (a2 :: A2).length ≤ N := by
          simp only [List.length_cons] at hA ⊢
          omega
        exact ih (a2 :: A2) hlen2 (isWordChar a1) (n + 1) e T Tp he3 hb

/-- Word-scan congruence, the 4-character analogue. -/
theorem scanW_takeWhile_congr :
    ∀ (N : Nat) (A : List Char), A.length ≤ N →
      ∀ (p : Bool) (n e : Nat) (T Tp : List Char), e = n + A.length →
        boundaryOK T = boundaryOK Tp →
        (scanW p n (A ++ T)).takeWhile (fun x => x.2 ≤ e)
          = (scanW p n (A ++ Tp)).takeWhile (fun x => x.2 ≤ e) := by
  intro N
  induction N with
  | zero =>
    intro A hA p n e T Tp he hb
    have hAnil : A = [] := List.length_eq_zero.1 (Nat.le_zero.1 hA)
    subst hAnil
    simp only [List.nil_append, List.length_nil, Nat.add_zero] at he ⊢
    subst he
    rw [takeWhile_nil_of_gt _ _ (fun x hx => by have := scanW_ends_lb _ _ _ x hx; omega),
      takeWhile_nil_of_gt _ _ (fun x hx => by have := scanW_ends_lb _ _ _ x hx; omega)]
  | succ N ih =>
    intro A hA p n e T Tp he hb
    match A with
    | [] =>
      simp only [List.nil_append, List.length_nil, Nat.add_zero] at he ⊢
      subst he
      rw [takeWhile_nil_of_gt _ _ (fun x hx => by have := scanW_ends_lb _ _ _ x hx; omega),
        takeWhile_nil_of_gt _ _ (fun x hx => by have := scanW_ends_lb _ _ _ x hx; omega)]
    | [a] =>
      have he1 : e = n + 1 := by simpa using he
      subst he1
      simp only [List.cons_append, List.nil_append]
      rw [takeWhile_nil_of_gt _ _ (fun x hx => by have := scanW_ends_lb _ _ _ x hx; omega),
        takeWhile_nil_of_gt _ _ (fun x hx => by have := scanW_ends_lb _ _ _ x hx; omega)]
    | [a, b] =>
      have he1 : e = n + 2 := by simpa using he
      subst he1
      simp only [List.cons_append, List.nil_append]
      rw [takeWhile_nil_of_gt _ _ (fun x hx => by have := scanW_ends_lb _ _ _ x hx; omega),
        takeWhile_nil_of_gt _ _ (fun x hx => by have := scanW_ends_lb _ _ _ x hx; omega)]
    | [a, b, c] =>
      have he1 : e = n + 3 := by simpa using he
      subst he1
      simp only [List.cons_append, List.nil_append]
      rw [takeWhile_nil_of_gt _ _ (fun x hx => by have := scanW_ends_lb _ _ _ x hx; omega),
        takeWhile_nil_of_gt _ _ (fun x hx => by have := scanW_ends_lb _ _ _ x hx; omega)]
    | a1 :: a2 :: a3 :: a4 :: A4 =>
      have hbokeq : boundaryOK (A4 ++ T) = boundaryOK (A4 ++ Tp) := by
        cases A4 with
        | nil => simpa using hb
        | cons a5 A5 => rfl
      have hlen : A4.length ≤ N := by
        simp only [List.length_cons] at hA
        omega
      have he2 : e = (n + 4) + A4.length := by
        simp only [List.length_cons] at he
        omega
      simp only [List.cons_append]
      by_cases hcond : (!p && isHexDigit a1 && isHexDigit a2 && isHexDigit a3 &&
          isHexDigit a4 && boundaryOK (A4 ++ T)) = true
      · have hcond2 : (!p && isHexDigit a1 && isHexDigit a2 && isHexDigit a3 &&
            isHexDigit a4 && boundaryOK (A4 ++ Tp)) = true := by
          rw [← hbokeq]
          exact hcond
        rw [scanW, if_pos hcond, scanW, if_pos hcond2]
        rw [List.takeWhile_cons_of_pos (by simp only [decide_eq_true_eq]; omega),
          List.takeWhile_cons_of_pos (by simp only [decide_eq_true_eq]; omega)]
        exact congrArg _ (ih A4 hlen true (n + 4) e T Tp he2 hb)
      · have hcond2 : ¬ (!p && isHexDigit a1 && isHexDigit a2 && isHexDigit a3 &&
            isHexDigit a4 && boundaryOK (A4 ++ Tp)) = true := by
          rw [← hbokeq]
          exact hcond
        rw [scanW, if_neg hcond, scanW, if_neg hcond2]
        have he3 : e = (n + 1) + (a2 :: a3 :: a4 :: A4).length := by
          simp only [List.length_cons] at he ⊢
          omega
        have hlen2 : (a2 :: a3 :: a4 :: A4).length ≤ N := by
          simp only [List.length_cons] at hA ⊢
          omega
        exact ih (a2 :: a3 :: a4 :: A4) hlen2 (isWordChar a1) (n + 1) e T Tp he3 hb

/-! ## Shape of the two fixers -/

/-- A well-formed address field has exactly 9 characters. -/
theorem isAddrField_length (l : List Char) (h : isAddrField l = true) : l.length = 9 := by
  unfold isAddrField at h
  split at h
  · simp_all
  · exact absurd h (by simp)

/-- Inversion of the address-regex match. -/
theorem addrMatch_inv (line addr rest : List Char)
    (h : addrMatch line = some (addr, rest)) :
    addr = line.take 9 ∧ isAddrField (line.take 9) = true ∧
      dotStarGroup (line.drop 9) = some rest := by
  unfold addrMatch at h
  by_cases hf : isAddrField (line.take 9) = true
  · rw [if_pos hf] at h
    cases hg : dotStarGroup (line.drop 9) with
    | none => rw [hg] at h; cases h
    | some g =>
      rw [hg] at h
      simp only [Option.some.injEq, Prod.mk.injEq] at h
      obtain ⟨rfl, rfl⟩ := h
      exact ⟨rfl, hf, rfl⟩
  · rw [if_neg hf] at h
    cases h

/-- Inversion of the dot-star-dollar group: the group is newline-free and the
matched text is the group, possibly followed by one final newline. -/
theorem dotStarGroup_inv (s g : List Char) (h : dotStarGroup s = some g) :
    '\n' ∉ g ∧ (s = g ∨ s = g ++ ['\n']) := by
  unfold dotStarGroup at h
  by_cases hc : '\n' ∈ s
  · rw [if_pos hc] at h
    by_cases h2 : s.getLast? = some '\n' ∧ '\n' ∉ s.dropLast
    · rw [if_pos h2] at h
      obtain rfl : s.dropLast = g := Option.some.inj h
      refine ⟨h2.2, Or.inr ?_⟩
      have hne : s ≠ [] := by
        intro hnil
        rw [hnil] at h2
        simp at h2
      conv_lhs => rw [← List.dropLast_append_getLast hne]
      have hlast : s.getLast hne = '\n' :=
        (List.getLast_eq_iff_getLast?_eq_some hne).2 h2.1
      rw [hlast]
    · rw [if_neg h2] at h
      cases h
  · rw [if_neg hc] at h
    obtain rfl : s = g := Option.some.inj h
    exact ⟨hc, Or.inl rfl⟩

/-- A newline-free text is its own dot-star-dollar group. -/
theorem dotStarGroup_of_no_newline (s : List Char) (h : '\n' ∉ s) :
    dotStarGroup s = some s := by
  unfold dotStarGroup
  rw [if_neg h]

/-- Inversion of the byte-view parse. -/
theorem byteViewParse_inv (line : List Char) (sp : Nat) (bs : List Nat)
    (h : byteViewParse line = some (sp, bs)) :
    ∃ addr rest tok, addrMatch line = some (addr, rest) ∧
      (scanB false 0 rest)[15]? = some tok ∧ sp = addr.length + tok.2 ∧
      bs = ((scanB false 0 rest).take 16).map Prod.fst := by
  unfold byteViewParse at h
  cases ha : addrMatch line with
  | none => rw [ha] at h; cases h
  | some ar =>
    obtain ⟨addr, rest⟩ := ar
    rw [ha] at h
    simp only [] at h
    cases hg : (scanB false 0 rest)[15]? with
    | none => rw [hg] at h; cases h
    | some tok =>
      rw [hg] at h
      simp only [Option.some.injEq, Prod.mk.injEq] at h
      obtain ⟨rfl, rfl⟩ := h
      exact ⟨addr, rest, tok, rfl, hg, rfl, rfl⟩

/-- Inversion of the word-view token extraction. -/
theorem wordViewWords_inv (line : List Char) (sp : Nat) (ws : List Nat)
    (h : wordViewWords line = some (sp, ws)) :
    ∃ addr rest tok, addrMatch line = some (addr, rest) ∧
      (scanW false 0 rest)[7]? = some tok ∧ sp = addr.length + tok.2 ∧
      ws = ((scanW false 0 rest).take 8).map Prod.fst := by
  unfold wordViewWords at h
  cases ha : addrMatch line with
  | none => rw [ha] at h; cases h
  | some ar =>
    obtain ⟨addr, rest⟩ := ar
    rw [ha] at h
    simp only [] at h
    cases hg : (scanW false 0 rest)[7]? with
    | none => rw [hg] at h; cases h
    | some tok =>
      rw [hg] at h
      simp only [Option.some.injEq, Prod.mk.injEq] at h
      obtain ⟨rfl, rfl⟩ := h
      exact ⟨addr, rest, tok, rfl, hg, rfl, rfl⟩

/-- The byte-view fixer is the byte-view parse followed by the shared
reconstruction: original text up to the split point, then the measured
padding, then one rendered character per byte of the run. -/
theorem try_fix_byte_eq (line : List Char) :
    try_fix_byte_view_line line = (byteViewParse line).map
      (fun q => line.take q.1 ++ List.replicate (padWidth (line.drop q.1)) ' '
        ++ q.2.map renderedByte) := by
  unfold try_fix_byte_view_line byteViewParse padWidth
  cases ha : addrMatch line with
  | none => rfl
  | some ar =>
    obtain ⟨addr, rest⟩ := ar
    simp only []
    cases hg : (scanB false 0 rest)[15]? with
    | none => rfl
    | some tok =>
      simp only [Option.map_some', flatten_map_render]

/-- The word-view fixer is the word-view parse followed by the same shared
reconstruction. -/
theorem try_fix_word_eq (line : List Char) :
    try_fix_word_view_line line = (wordViewParse line).map
      (fun q => line.take q.1 ++ List.replicate (padWidth (line.drop q.1)) ' '
        ++ q.2.map renderedByte) := by
  unfold try_fix_word_view_line wordViewParse wordViewWords padWidth
  cases ha : addrMatch line with
  | none => rfl
  | some ar =>
    obtain ⟨addr, rest⟩ := ar
    simp only []
    cases hg : (scanW false 0 rest)[7]? with
    | none => rfl
    | some tok =>
      simp only [Option.map_some', flatten_map_render, List.flatMap_map]

/-- Byte runs of the byte-view parse: exactly 16 bytes, all below 256. -/
theorem byteViewParse_bytes (line : List Char) (sp : Nat) (bs : List Nat)
    (h : byteViewParse line = some (sp, bs)) :
    bs.length = 16 ∧ ∀ b ∈ bs, b < 256 := by
  obtain ⟨addr, rest, tok, ha, hg, hsp, hbs⟩ := byteViewParse_inv line sp bs h
  subst hbs
  constructor
  · rw [List.length_map, List.length_take]
    have h15 : 15 < (scanB false 0 rest).length := (List.getElem?_eq_some.1 hg).1
    omega
  · intro b hb
    rw [List.mem_map] at hb
    obtain ⟨x, hx, rfl⟩ := hb
    exact scanB_val_lt _ _ _ x (List.take_subset _ _ hx)

/-- Word runs of the word-view extraction: exactly 8 words, all below 65536. -/
theorem wordViewWords_facts (line : List Char) (sp : Nat) (ws : List Nat)
    (h : wordViewWords line = some (sp, ws)) :
    ws.length = 8 ∧ ∀ w ∈ ws, w < 65536 := by
  obtain ⟨addr, rest, tok, ha, hg, hsp, hws⟩ := wordViewWords_inv line sp ws h
  subst hws
  constructor
  · rw [List.length_map, List.length_take]
    have h7 : 7 < (scanW false 0 rest).length := (List.getElem?_eq_some.1 hg).1
    omega
  · intro w hw
    rw [List.mem_map] at hw
    obtain ⟨x, hx, rfl⟩ := hw
    exact scanW_val_lt _ _ _ x (List.take_subset _ _ hx)

/-- Inversion of the word-view parse into word values and the little-endian
byte run. -/
theorem wordViewParse_inv (line : List Char) (sp : Nat) (bs : List Nat)
    (h : wordViewParse line = some (sp, bs)) :
    ∃ ws, wordViewWords line = some (sp, ws) ∧
      bs = ws.flatMap (fun w => [w % 256, w / 256 % 256]) := by
  unfold wordViewParse at h
  cases hw : wordViewWords line with
  | none => rw [hw] at h; cases h
  | some q =>
    obtain ⟨sp2, ws⟩ := q
    rw [hw] at h
    simp only [Option.some.injEq, Prod.mk.injEq] at h
    obtain ⟨rfl, rfl⟩ := h
    exact ⟨ws, rfl, rfl⟩

/-- Splitting each word into two bytes doubles the length. -/
theorem length_flatMap_pair (ws : List Nat) :
    (ws.flatMap (fun w => [w % 256, w / 256 % 256])).length = 2 * ws.length := by
  induction ws with
  | nil => rfl
  | cons w t ih =>
    simp only [List.flatMap_cons, List.length_append, List.length_cons, ih,
      List.length_nil, List.length_cons]
    omega

/-- Every byte obtained by splitting a word is below 256. -/
theorem mem_flatMap_pair (ws : List Nat) (b : Nat)
    (hb : b ∈ ws.flatMap (fun w => [w % 256, w / 256 % 256])) : b < 256 := by
  rw [List.mem_flatMap] at hb
  obtain ⟨w, -, hw⟩ := hb
  simp only [List.mem_cons, List.not_mem_nil, or_false] at hw
  rcases hw with rfl | rfl
  · exact Nat.mod_lt _ (by omega)
  · exact Nat.mod_lt _ (by omega)

/-- C1.  Every line classified as a dump line (byte-layout tried first, then
word-layout) is reconstructed as: the original text up to the split point
(the end of the 16th byte token, or of the 8th word token), then a run of
padding spaces whose width follows the padding rule measured on the stale
tail, then exactly 16 rendered characters, one per reconstructed byte in
order.  The 16 characters are a function of the byte run alone, so nothing
of the stale tail beyond its measured leading-space run influences them. -/
theorem dump_line_reconstruction (line out : List Char)
    (h : try_fix_byte_view_line line = some out ∨
      (try_fix_byte_view_line line = none ∧ try_fix_word_view_line line = some out)) :
    ∃ sp bs, (byteViewParse line = some (sp, bs) ∨ wordViewParse line = some (sp, bs)) ∧
      bs.length = 16 ∧ (∀ b ∈ bs, b < 256) ∧
      out = line.take sp ++ List.replicate (padWidth (line.drop sp)) ' '
        ++ bs.map renderedByte := by
  rcases h with h | ⟨-, h⟩
  · rw [try_fix_byte_eq] at h
    cases hp : byteViewParse line with
    | none => rw [hp] at h; cases h
    | some q =>
      obtain ⟨sp, bs⟩ := q
      rw [hp] at h
      simp only [Option.map_some', Option.some.injEq] at h
      obtain ⟨hlen, hmem⟩ := byteViewParse_bytes line sp bs hp
      exact ⟨sp, bs, Or.inl rfl, hlen, hmem, h.symm⟩
  · rw [try_fix_word_eq] at h
    cases hp : wordViewParse line with
    | none => rw [hp] at h; cases h
    | some q =>
      obtain ⟨sp, bs⟩ := q
      rw [hp] at h
      simp only [Option.map_some', Option.some.injEq] at h
      obtain ⟨ws, hw, hbs⟩ := wordViewParse_inv line sp bs hp
      obtain ⟨hwlen, -⟩ := wordViewWords_facts line sp ws hw
      refine ⟨sp, bs, Or.inr rfl, ?_, ?_, h.symm⟩
      · rw [hbs, length_flatMap_pair, hwlen]
      · intro b hb
        rw [hbs] at hb
        exact mem_flatMap_pair ws b hb

/-- Witness for C1 on scenario A: the byte-view line reconstructs with byte
0x8A rendered as the CP866 letter К and the fifteen remaining bytes (0x10
and fourteen 0x00, all control bytes) rendered as periods. -/
theorem dump_line_reconstruction_witness :
    ∃ sp bs,
      (byteViewParse scenarioA = some (sp, bs) ∨ wordViewParse scenarioA = some (sp, bs)) ∧
      bs.length = 16 ∧ (∀ b ∈ bs, b < 256) ∧
      ("0000:0000  8A 10 00 00 00 00 00 00 00 00 00 00 00 00 00 00  К...............".toList)
        = scenarioA.take sp ++ List.replicate (padWidth (scenarioA.drop sp)) ' '
          ++ bs.map renderedByte :=
  dump_line_reconstruction scenarioA
    ("0000:0000  8A 10 00 00 00 00 00 00 00 00 00 00 00 00 00 00  К...............".toList)
    (Or.inl (by decide))

/-- C2.  A word-view line takes its first 8 four-digit tokens as 16-bit
words; each word contributes its low byte and then its high byte to the
16-byte run (little-endian), and in particular the token 2020 contributes
0x20, 0x20 in that order. -/
theorem word_view_little_endian (line out : List Char)
    (h : try_fix_word_view_line line = some out) :
    ∃ sp ws, wordViewWords line = some (sp, ws) ∧ ws.length = 8 ∧
      (∀ w ∈ ws, w < 65536) ∧
      wordViewParse line = some (sp, ws.flatMap (fun w => [w % 256, w / 256 % 256])) ∧
      out = line.take sp ++ List.replicate (padWidth (line.drop sp)) ' '
        ++ (ws.flatMap (fun w => [w % 256, w / 256 % 256])).map renderedByte ∧
      (fun w => [w % 256, w / 256 % 256]) 0x2020 = [0x20, 0x20] := by
  rw [try_fix_word_eq] at h
  cases hp : wordViewParse line with
  | none => rw [hp] at h; cases h
  | some q =>
    obtain ⟨sp, bs⟩ := q
    rw [hp] at h
    simp only [Option.map_some', Option.some.injEq] at h
    obtain ⟨ws, hw, hbs⟩ := wordViewParse_inv line sp bs hp
    obtain ⟨hwlen, hwmem⟩ := wordViewWords_facts line sp ws hw
    subst hbs
    exact ⟨sp, ws, hw, hwlen, hwmem, rfl, h.symm, by decide⟩

/-- Witness for C2 on scenario B. -/
theorem word_view_little_endian_witness :
    ∃ sp ws, wordViewWords scenarioB = some (sp, ws) ∧ ws.length = 8 ∧
      (∀ w ∈ ws, w < 65536) ∧
      wordViewParse scenarioB = some (sp, ws.flatMap (fun w => [w % 256, w / 256 % 256])) ∧
      ("0000:0500  0000 2020 0000 0000 0000 0000 0000 0000  ..  ............".toList)
        = scenarioB.take sp ++ List.replicate (padWidth (scenarioB.drop sp)) ' '
          ++ (ws.flatMap (fun w => [w % 256, w / 256 % 256])).map renderedByte ∧
      (fun w => [w % 256, w / 256 % 256]) 0x2020 = [0x20, 0x20] :=
  word_view_little_endian scenarioB
    ("0000:0500  0000 2020 0000 0000 0000 0000 0000 0000  ..  ............".toList)
    (by decide)

/-- C4.  A line with no address field, or with an address field but fewer
than 16 standalone byte tokens and fewer than 8 standalone word tokens, is
returned byte-identical by the per-line classifier; the fallback is silent
and total. -/
theorem unclassified_line_unchanged (line : List Char)
    (h : addrMatch line = none ∨
      ∃ addr rest, addrMatch line = some (addr, rest) ∧
        (scanB false 0 rest).length < 16 ∧ (scanW false 0 rest).length < 8) :
    fixCore line = line := by
  unfold fixCore try_fix_byte_view_line try_fix_word_view_line
  rcases h with h | ⟨addr, rest, h, hb, hw⟩
  · rw [h]
  · rw [h]
    have hb15 : (scanB false 0 rest)[15]? = none := List.getElem?_eq_none (by omega)
    have hw7 : (scanW false 0 rest)[7]? = none := List.getElem?_eq_none (by omega)
    simp only [hb15, hw7]

/-- Witness for C4 on a line with an address field but only two byte tokens
and no word token. -/
theorem unclassified_line_unchanged_witness : fixCore shortLine = shortLine :=
  unclassified_line_unchanged shortLine
    (Or.inr ⟨"F000:1234".toList, "  41 41".toList, by decide, by decide, by decide⟩)

/-- C6.  Scenario B end to end: the byte-view detector does not match (the
four-digit groups contain no standalone two-digit token), the word-view
detector extracts the words 0000 2020 0000 ... 0000 ending at split point
50, the byte run is 00 00 20 20 00 ... 00, and the rebuilt tail after the
two padding spaces is two periods, two spaces, then twelve periods. -/
theorem scenario_b_word_view :
    try_fix_byte_view_line scenarioB = none ∧
    wordViewWords scenarioB = some (50, [0x0000, 0x2020, 0, 0, 0, 0, 0, 0]) ∧
    wordViewParse scenarioB =
      some (50, [0x00, 0x00, 0x20, 0x20, 0, 0, 0, 0, 0, 0, 0, 0, 0, 0, 0, 0]) ∧
    try_fix_word_view_line scenarioB =
      some (scenarioB.take 50 ++ List.replicate 2 ' '
        ++ (['.', '.'] ++ [' ', ' '] ++ List.replicate 12 '.')) ∧
    fixCore scenarioB = scenarioB.take 50 ++ List.replicate 2 ' '
      ++ (['.', '.'] ++ [' ', ' '] ++ List.replicate 12 '.') := by
  refine ⟨by decide, by decide, by decide, by decide, by decide⟩

/-! ## Facts about line splitting, terminators and break-free texts -/

/-- breakFree distributes over append. -/
theorem breakFree_append (a b : List Char) :
    breakFree (a ++ b) = (breakFree a && breakFree b) := by
  unfold breakFree
  exact List.all_append

/-- breakFree as a membership statement. -/
theorem breakFree_iff (s : List Char) :
    breakFree s = true ↔ ∀ c ∈ s, isLineBreak c = false := by
  unfold breakFree
  rw [List.all_eq_true]
  simp only [Bool.not_eq_true']

/-- Reversal preserves breakFree. -/
theorem breakFree_reverse (s : List Char) : breakFree s.reverse = breakFree s := by
  unfold breakFree
  exact List.all_reverse

/-- breakFree on a cons. -/
theorem breakFree_cons (c : Char) (t : List Char) :
    breakFree (c :: t) = (!isLineBreak c && breakFree t) := by
  unfold breakFree
  rfl

/-- Prefixes of break-free texts are break-free. -/
theorem breakFree_take (s : List Char) (n : Nat) (h : breakFree s = true) :
    breakFree (s.take n) = true := by
  rw [breakFree_iff] at h ⊢
  intro c hc
  exact h c (List.take_subset n s hc)

/-- Runs of spaces are break-free. -/
theorem breakFree_replicate_space (k : Nat) :
    breakFree (List.replicate k ' ') = true := by
  rw [breakFree_iff]
  intro c hc
  rw [List.eq_of_mem_replicate hc]
  decide

/-- Rendered byte runs are break-free. -/
theorem breakFree_rendered (bs : List Nat) :
    breakFree (bs.map renderedByte) = true := by
  rw [breakFree_iff]
  intro c hc
  rw [List.mem_map] at hc
  obtain ⟨b, -, rfl⟩ := hc
  exact renderedByte_not_break b

/-- The padding rule always produces at least one space. -/
theorem padWidth_pos (t : List Char) : 1 ≤ padWidth t := by
  unfold padWidth
  split <;> omega

/-- A non-empty run of spaces satisfies the token boundary condition. -/
theorem boundaryOK_replicate_space (k : Nat) (hk : 1 ≤ k) (X : List Char) :
    boundaryOK (List.replicate k ' ' ++ X) = true := by
  match k, hk with
  | k + 1, _ =>
    rw [List.replicate_succ, List.cons_append]
    have hred : boundaryOK (' ' :: (List.replicate k ' ' ++ X)) = !isWordChar ' ' := rfl
    rw [hred]
    decide

/-- Counting leading spaces past a replicated space prefix. -/
theorem leadingSpaces_replicate_append (k : Nat) (X : List Char) :
    leadingSpaces (List.replicate k ' ' ++ X) = k + leadingSpaces X := by
  induction k with
  | zero => simp [List.replicate]
  | succ k ih =>
    rw [List.replicate_succ, List.cons_append, leadingSpaces, if_pos rfl, ih]
    omega

/-- A text starting with a non-space has no leading spaces. -/
theorem leadingSpaces_cons_ne (c : Char) (X : List Char) (h : c ≠ ' ') :
    leadingSpaces (c :: X) = 0 := by
  rw [leadingSpaces, if_neg h]

/-- Terminator stripping on a break-free core: nothing is stripped. -/
theorem stripNewline_breakFree (a : List Char) (h : breakFree a = true) :
    stripNewline a = (a, []) := by
  unfold stripNewline
  rw [if_neg ?hne]
  case hne =>
    intro hl
    have hmem := List.mem_of_getLast?_eq_some hl
    rw [breakFree_iff] at h
    have := h _ hmem
    simp [isLineBreak] at this

/-- Terminator stripping splits a trailing LF off a break-free core. -/
theorem stripNewline_lf (a : List Char) (h : breakFree a = true) :
    stripNewline (a ++ ['\n']) = (a, ['\n']) := by
  unfold stripNewline
  rw [if_pos (by rw [List.getLast?_concat]), List.dropLast_concat, if_neg ?hr]
  case hr =>
    intro hl
    have hmem := List.mem_of_getLast?_eq_some hl
    rw [breakFree_iff] at h
    have := h _ hmem
    simp [isLineBreak] at this

/-- Terminator stripping splits a trailing CRLF off a break-free core. -/
theorem stripNewline_crlf (a : List Char) (h : breakFree a = true) :
    stripNewline (a ++ ['\r', '\n']) = (a, ['\r', '\n']) := by
  have hsplit : a ++ ['\r', '\n'] = (a ++ ['\r']) ++ ['\n'] := by simp
  rw [hsplit]
  unfold stripNewline
  rw [if_pos (by rw [List.getLast?_concat]), List.dropLast_concat,
    if_pos (by rw [List.getLast?_concat]), List.dropLast_concat]

/-- Step equation of the line splitter at a CRLF. -/
theorem splitlinesAux_crlf (rest acc : List Char) :
    splitlinesAux ('\r' :: '\n' :: rest) acc
      = (acc.reverse ++ ['\r', '\n']) :: splitlinesAux rest [] := rfl

/-- Step equation of the line splitter at a lone LF. -/
theorem splitlinesAux_lf (rest acc : List Char) :
    splitlinesAux ('\n' :: rest) acc
      = (acc.reverse ++ ['\n']) :: splitlinesAux rest [] := rfl

set_option maxHeartbeats 4000000 in
/-- Step equation of the line splitter at an ordinary character. -/
theorem splitlinesAux_nonbreak (c : Char) (rest acc : List Char)
    (h : isLineBreak c = false) :
    splitlinesAux (c :: rest) acc = splitlinesAux rest (c :: acc) := by
  have hc : c ≠ '\r' := by
    intro hr
    subst hr
    simp [isLineBreak] at h
  rcases rest with _ | ⟨d, rest2⟩
  · simp [splitlinesAux, h]
  · simp [splitlinesAux, h, hc]

/-- The splitter walks through a break-free prefix accumulating it. -/
theorem splitlinesAux_breakFree_append (core : List Char) (h : breakFree core = true) :
    ∀ acc rest, splitlinesAux (core ++ rest) acc
      = splitlinesAux rest (core.reverse ++ acc) := by
  induction core with
  | nil => intro acc rest; simp
  | cons c t ih =>
    intro acc rest
    rw [breakFree_cons, Bool.and_eq_true, Bool.not_eq_true'] at h
    rw [List.cons_append, splitlinesAux_nonbreak c _ _ h.1, ih h.2 (c :: acc) rest]
    congr 1
    simp

/-- A non-empty break-free text is a single line. -/
theorem splitlines_single (l : List Char) (hb : breakFree l = true) (hne : l ≠ []) :
    splitlinesKeepends l = [l] := by
  unfold splitlinesKeepends
  have h0 : splitlinesAux l [] = splitlinesAux (l ++ []) [] := by rw [List.append_nil]
  rw [h0, splitlinesAux_breakFree_append l hb [] []]
  rw [splitlinesAux]
  rw [if_neg (by simpa using hne)]
  simp

/-- Evaluation of goodBreaks on a cons. -/
theorem goodBreaks_cons (c : Char) (rest : List Char) :
    goodBreaks (c :: rest) =
      if c = '\r' then
        (match rest with
          | '\n' :: rest2 => goodBreaks rest2
          | _ => false)
      else ((c == '\n' || !isLineBreak c) && goodBreaks rest) := by
  by_cases hc : c = '\r'
  · subst hc
    rcases rest with _ | ⟨d, rest2⟩
    · simp [goodBreaks, isLineBreak]
    · by_cases hd : d = '\n'
      · subst hd
        simp [goodBreaks]
      · simp [goodBreaks, hd, isLineBreak]
  · simp [goodBreaks, hc]

/-! ## Structure of fixCore output -/

/-- The padding rule evaluates to any measured run of at least one space. -/
theorem padWidth_eq_of_leadingSpaces (t : List Char) (k : Nat) (hk : 1 ≤ k)
    (h : leadingSpaces t = k) : padWidth t = k := by
  unfold padWidth
  rw [h, if_neg (by omega)]

/-- fixCore on a byte-view line is the shared reconstruction. -/
theorem fixCore_of_byte (line : List Char) (sp : Nat) (bs : List Nat)
    (h : byteViewParse line = some (sp, bs)) :
    fixCore line = line.take sp ++ List.replicate (padWidth (line.drop sp)) ' '
      ++ bs.map renderedByte := by
  unfold fixCore
  rw [try_fix_byte_eq, h]
  rfl

/-- fixCore either leaves the core unchanged or produces the shared
reconstruction shape at some split position. -/
theorem fixCore_cases (core : List Char) :
    fixCore core = core ∨
      ∃ (sp : Nat) (bs : List Nat), fixCore core
        = core.take sp ++ List.replicate (padWidth (core.drop sp)) ' '
          ++ bs.map renderedByte := by
  unfold fixCore
  rw [try_fix_byte_eq, try_fix_word_eq]
  cases hb : byteViewParse core with
  | some q =>
    right
    exact ⟨q.1, q.2, rfl⟩
  | none =>
    cases hw : wordViewParse core with
    | some q =>
      right
      exact ⟨q.1, q.2, rfl⟩
    | none =>
      left
      rfl

/-- A break-free core stays break-free under fixCore. -/
theorem fixCore_breakFree (core : List Char) (h : breakFree core = true) :
    breakFree (fixCore core) = true := by
  rcases fixCore_cases core with hc | ⟨sp, bs, hc⟩
  · rw [hc]; exact h
  · rw [hc, breakFree_append, breakFree_append, breakFree_take core sp h,
      breakFree_replicate_space, breakFree_rendered]
    rfl

/-- fixCore never maps a non-empty core to the empty string. -/
theorem fixCore_ne_nil (core : List Char) (h : core ≠ []) : fixCore core ≠ [] := by
  rcases fixCore_cases core with hc | ⟨sp, bs, hc⟩
  · rw [hc]; exact h
  · rw [hc]
    intro habs
    have hlen := congrArg List.length habs
    simp only [List.length_append, List.length_replicate, List.length_map,
      List.length_nil] at hlen
    have hp := padWidth_pos (core.drop sp)
    omega

/-- The two components of stripNewline reassemble to the line, and the
stripped terminator is empty, a lone LF or a CRLF. -/
theorem stripNewline_shape (l : List Char) :
    (stripNewline l).1 ++ (stripNewline l).2 = l ∧
      ((stripNewline l).2 = [] ∨ (stripNewline l).2 = ['\n'] ∨
        (stripNewline l).2 = ['\r', '\n']) := by
  unfold stripNewline
  by_cases h1 : l.getLast? = some '\n'
  · obtain ⟨l1, rfl⟩ := List.getLast?_eq_some_iff.1 h1
    rw [if_pos h1, List.dropLast_concat]
    by_cases h2 : l1.getLast? = some '\r'
    · obtain ⟨l2, rfl⟩ := List.getLast?_eq_some_iff.1 h2
      rw [if_pos h2, List.dropLast_concat]
      refine ⟨by simp, Or.inr (Or.inr rfl)⟩
    · rw [if_neg h2]
      exact ⟨rfl, Or.inr (Or.inl rfl)⟩
  · rw [if_neg h1]
    exact ⟨List.append_nil l, Or.inl rfl⟩

/-- fixOne in terms of the stripped core and terminator. -/
theorem fixOne_eq (l : List Char) :
    fixOne l = fixCore (stripNewline l).1 ++ (stripNewline l).2 := rfl

/-- Patching keeps the terminator: on a line whose stripped core is
break-free, stripping after fixOne yields the patched core and the same
terminator. -/
theorem stripNewline_fixOne (l : List Char) (h : breakFree (stripNewline l).1 = true) :
    stripNewline (fixOne l) = (fixCore (stripNewline l).1, (stripNewline l).2) := by
  have hc := fixCore_breakFree _ h
  rw [fixOne_eq]
  rcases (stripNewline_shape l).2 with hnl | hnl | hnl <;> rw [hnl]
  · rw [List.append_nil, stripNewline_breakFree _ hc]
  · rw [stripNewline_lf _ hc]
  · rw [stripNewline_crlf _ hc]

/-! ## goodBreaks step equations -/

/-- goodBreaks step at a CRLF. -/
theorem goodBreaks_crlf (rest : List Char) :
    goodBreaks ('\r' :: '\n' :: rest) = goodBreaks rest := rfl

/-- goodBreaks step at a lone LF. -/
theorem goodBreaks_lf (rest : List Char) :
    goodBreaks ('\n' :: rest) = goodBreaks rest := by
  rw [goodBreaks_cons, if_neg (by decide : ¬('\n' : Char) = '\r')]
  have h1 : (('\n' : Char) == '\n' || !isLineBreak '\n') = true := by decide
  rw [h1, Bool.true_and]

/-- goodBreaks step at an ordinary character. -/
theorem goodBreaks_nonbreak (c : Char) (rest : List Char) (h : isLineBreak c = false) :
    goodBreaks (c :: rest) = goodBreaks rest := by
  have hc : c ≠ '\r' := by
    intro hr
    subst hr
    simp [isLineBreak] at h
  rw [goodBreaks_cons, if_neg hc, h]
  simp

set_option maxHeartbeats 1000000 in
/-- A CR followed by anything but LF violates goodBreaks. -/
theorem goodBreaks_cr_cons (d : Char) (r2 : List Char) (hd : d ≠ '\n') :
    goodBreaks ('\r' :: d :: r2) = false := by
  simp [goodBreaks, hd, isLineBreak]

/-! ## Line shapes and re-splitting of the patched screen -/

/-- Under LF/CRLF-only breaks, every line produced by the splitter strips to
a break-free core. -/
theorem splitlines_core_breakFree (s acc : List Char) :
    goodBreaks s = true → breakFree acc = true →
    ∀ l ∈ splitlinesAux s acc, breakFree (stripNewline l).1 = true := by
  induction s, acc using splitlinesAux.induct with
  | case1 acc hacc =>
    intro hg hb l hl
    rw [splitlinesAux, if_pos hacc] at hl
    simp at hl
  | case2 acc hacc =>
    intro hg hb l hl
    rw [splitlinesAux, if_neg hacc, List.mem_singleton] at hl
    subst hl
    have hrev : breakFree acc.reverse = true := by rw [breakFree_reverse]; exact hb
    rw [stripNewline_breakFree _ hrev]
    exact hrev
  | case3 rest acc ih =>
    intro hg hb l hl
    rw [splitlinesAux_crlf] at hl
    rcases List.mem_cons.1 hl with rfl | hl
    · have hrev : breakFree acc.reverse = true := by rw [breakFree_reverse]; exact hb
      rw [stripNewline_crlf _ hrev]
      exact hrev
    · exact ih (by rw [goodBreaks_crlf] at hg; exact hg) rfl l hl
  | case4 c rest acc hnm hlb ih =>
    intro hg hb l hl
    have hc : c = '\n' := by
      by_cases hr : c = '\r'
      · subst hr
        exfalso
        rcases rest with _ | ⟨d, r2⟩
        · exact absurd hg (by decide)
        · have hd : d ≠ '\n' := fun hdeq => hnm r2 rfl (by rw [hdeq])
          rw [goodBreaks_cr_cons d r2 hd] at hg
          cases hg
      · rw [goodBreaks_cons, if_neg hr, Bool.and_eq_true, Bool.or_eq_true] at hg
        rcases hg.1 with h1 | h1
        · exact eq_of_beq h1
        · rw [hlb] at h1
          simp at h1
    subst hc
    rw [splitlinesAux_lf] at hl
    rcases List.mem_cons.1 hl with rfl | hl
    · have hrev : breakFree acc.reverse = true := by rw [breakFree_reverse]; exact hb
      rw [stripNewline_lf _ hrev]
      exact hrev
    · exact ih (by rw [goodBreaks_lf] at hg; exact hg) rfl l hl
  | case5 c rest acc hnm hlb ih =>
    intro hg hb l hl
    have hlb2 : isLineBreak c = false := by
      cases hv : isLineBreak c
      · rfl
      · exact absurd hv hlb
    rw [splitlinesAux_nonbreak c rest acc hlb2] at hl
    exact ih (by rw [goodBreaks_nonbreak c rest hlb2] at hg; exact hg)
      (by rw [breakFree_cons, hlb2, hb]; decide) l hl

/-- Re-splitting the patched lines gives exactly the patched lines. -/
theorem resplit_aux (s acc : List Char) :
    goodBreaks s = true → breakFree acc = true →
    splitlinesAux (((splitlinesAux s acc).map fixOne).flatten) []
      = (splitlinesAux s acc).map fixOne := by
  induction s, acc using splitlinesAux.induct with
  | case1 acc hacc =>
    intro hg hb
    rw [splitlinesAux, if_pos hacc]
    rfl
  | case2 acc hacc =>
    intro hg hb
    have hrev : breakFree acc.reverse = true := by rw [breakFree_reverse]; exact hb
    have hne : acc.reverse ≠ [] := by
      rw [ne_eq, List.reverse_eq_nil_iff]
      intro h0
      subst h0
      exact hacc rfl
    rw [splitlinesAux, if_neg hacc]
    simp only [List.map_cons, List.map_nil, List.flatten_cons, List.flatten_nil,
      List.append_nil]
    have h1 : fixOne acc.reverse = fixCore acc.reverse := by
      rw [fixOne_eq, stripNewline_breakFree _ hrev]
      simp
    rw [h1]
    exact splitlines_single _ (fixCore_breakFree _ hrev) (fixCore_ne_nil _ hne)
  | case3 rest acc ih =>
    intro hg hb
    have hgr : goodBreaks rest = true := by rw [goodBreaks_crlf] at hg; exact hg
    have hrev : breakFree acc.reverse = true := by rw [breakFree_reverse]; exact hb
    have hC : breakFree (fixCore acc.reverse) = true := fixCore_breakFree _ hrev
    rw [splitlinesAux_crlf]
    simp only [List.map_cons, List.flatten_cons]
    have h1 : fixOne (acc.reverse ++ ['\r', '\n']) = fixCore acc.reverse ++ ['\r', '\n'] := by
      rw [fixOne_eq, stripNewline_crlf _ hrev]
    rw [h1, List.append_assoc, splitlinesAux_breakFree_append _ hC, List.append_nil]
    simp only [List.cons_append, List.nil_append]
    rw [splitlinesAux_crlf, List.reverse_reverse, ih hgr rfl]
  | case4 c rest acc hnm hlb ih =>
    intro hg hb
    have hc : c = '\n' := by
      by_cases hr : c = '\r'
      · subst hr
        exfalso
        rcases rest with _ | ⟨d, r2⟩
        · exact absurd hg (by decide)
        · have hd : d ≠ '\n' := fun hdeq => hnm r2 rfl (by rw [hdeq])
          rw [goodBreaks_cr_cons d r2 hd] at hg
          cases hg
      · rw [goodBreaks_cons, if_neg hr, Bool.and_eq_true, Bool.or_eq_true] at hg
        rcases hg.1 with h1 | h1
        · exact eq_of_beq h1
        · rw [hlb] at h1
          simp at h1
    subst hc
    have hgr : goodBreaks rest = true := by rw [goodBreaks_lf] at hg; exact hg
    have hrev : breakFree acc.reverse = true := by rw [breakFree_reverse]; exact hb
    have hC : breakFree (fixCore acc.reverse) = true := fixCore_breakFree _ hrev
    rw [splitlinesAux_lf]
    simp only [List.map_cons, List.flatten_cons]
    have h1 : fixOne (acc.reverse ++ ['\n']) = fixCore acc.reverse ++ ['\n'] := by
      rw [fixOne_eq, stripNewline_lf _ hrev]
    rw [h1, List.append_assoc, splitlinesAux_breakFree_append _ hC, List.append_nil]
    simp only [List.cons_append, List.nil_append]
    rw [splitlinesAux_lf, List.reverse_reverse, ih hgr rfl]
  | case5 c rest acc hnm hlb ih =>
    intro hg hb
    have hlb2 : isLineBreak c = false := by
      cases hv : isLineBreak c
      · rfl
      · exact absurd hv hlb
    rw [splitlinesAux_nonbreak c rest acc hlb2]
    exact ih (by rw [goodBreaks_nonbreak c rest hlb2] at hg; exact hg)
      (by rw [breakFree_cons, hlb2, hb]; decide)

/-- Splitting the patched screen recovers the patched lines, in order. -/
theorem resplit (s : List Char) (hg : goodBreaks s = true) :
    splitlinesKeepends (fix_screen_text s) = (splitlinesKeepends s).map fixOne :=
  resplit_aux s [] hg rfl

/-! ## Stability of the byte-view reconstruction -/

/-- Stability of the byte-view reconstruction: when the first byte of the run
does not render as a space, the rebuilt line parses again at the same split
position with the same byte run, measures the same padding, and keeps its
prefix up to the split position. -/
theorem byteViewParse_refix (line : List Char) (sp : Nat) (bs : List Nat)
    (h : byteViewParse line = some (sp, bs)) (hh : bs.head? ≠ some 0x20) :
    byteViewParse (line.take sp ++ List.replicate (padWidth (line.drop sp)) ' '
        ++ bs.map renderedByte) = some (sp, bs) ∧
    padWidth ((line.take sp ++ List.replicate (padWidth (line.drop sp)) ' '
        ++ bs.map renderedByte).drop sp) = padWidth (line.drop sp) ∧
    (line.take sp ++ List.replicate (padWidth (line.drop sp)) ' '
        ++ bs.map renderedByte).take sp = line.take sp := by
  obtain ⟨addr, rest, tok, ha, hgB, hsp, hbs⟩ := byteViewParse_inv line sp bs h
  obtain ⟨haddr, hfield, hdot⟩ := addrMatch_inv line addr rest ha
  subst haddr
  have h9 : (line.take 9).length = 9 := isAddrField_length _ hfield
  have htokmem : tok ∈ scanB false 0 rest := mem_of_getElem_some hgB
  have he2 : 0 + 2 ≤ tok.2 := scanB_ends_lb false 0 rest tok htokmem
  have heLe : tok.2 ≤ 0 + rest.length := scanB_ends_le false 0 rest tok htokmem
  have heLe2 : tok.2 ≤ rest.length := by omega
  have hbound : boundaryOK (rest.drop tok.2) = true := by
    have hb := scanB_boundary false 0 rest tok htokmem
    rw [Nat.sub_zero] at hb
    exact hb
  obtain ⟨hnlrest, hdd⟩ := dotStarGroup_inv _ _ hdot
  have hsp9 : sp = 9 + tok.2 := by rw [hsp, h9]
  have hpad1 : 1 ≤ padWidth (line.drop sp) := padWidth_pos _
  have h9line : 9 ≤ line.length := by
    have hmin := List.length_take 9 line
    omega
  have htake_sp : line.take sp = line.take 9 ++ rest.take tok.2 := by
    rw [hsp9, List.take_add]
    congr 1
    rcases hdd with hdd | hdd
    · rw [hdd]
    · rw [hdd, List.take_append_of_le_length heLe2]
  have hsp_le : sp ≤ line.length := by
    have hdl : (line.drop 9).length = line.length - 9 := List.length_drop 9 line
    have hrl : rest.length ≤ (line.drop 9).length := by
      rcases hdd with hdd | hdd
      · exact le_of_eq (by rw [hdd])
      · rw [hdd, List.length_append, List.length_singleton]
        omega
    omega
  have hlen_sp : (line.take sp).length = sp := by
    rw [List.length_take]
    omega
  have hout2 : line.take sp ++ List.replicate (padWidth (line.drop sp)) ' '
      ++ bs.map renderedByte
      = line.take 9 ++ (rest.take tok.2
        ++ (List.replicate (padWidth (line.drop sp)) ' ' ++ bs.map renderedByte)) := by
    rw [List.append_assoc, htake_sp, List.append_assoc]
  have htake9out : (line.take sp ++ List.replicate (padWidth (line.drop sp)) ' '
      ++ bs.map renderedByte).take 9 = line.take 9 := by
    rw [hout2]
    have h1 := List.take_left (line.take 9) (rest.take tok.2
      ++ (List.replicate (padWidth (line.drop sp)) ' ' ++ bs.map renderedByte))
    rw [h9] at h1
    exact h1
  have hdrop9out : (line.take sp ++ List.replicate (padWidth (line.drop sp)) ' '
      ++ bs.map renderedByte).drop 9
      = rest.take tok.2 ++ (List.replicate (padWidth (line.drop sp)) ' '
        ++ bs.map renderedByte) := by
    rw [hout2]
    have h1 := List.drop_left (line.take 9) (rest.take tok.2
      ++ (List.replicate (padWidth (line.drop sp)) ' ' ++ bs.map renderedByte))
    rw [h9] at h1
    exact h1
  have htakespout : (line.take sp ++ List.replicate (padWidth (line.drop sp)) ' '
      ++ bs.map renderedByte).take sp = line.take sp := by
    rw [List.append_assoc]
    have h1 := List.take_left (line.take sp)
      (List.replicate (padWidth (line.drop sp)) ' ' ++ bs.map renderedByte)
    rw [hlen_sp] at h1
    exact h1
  have hdropspout : (line.take sp ++ List.replicate (padWidth (line.drop sp)) ' '
      ++ bs.map renderedByte).drop sp
      = List.replicate (padWidth (line.drop sp)) ' ' ++ bs.map renderedByte := by
    rw [List.append_assoc]
    have h1 := List.drop_left (line.take sp)
      (List.replicate (padWidth (line.drop sp)) ' ' ++ bs.map renderedByte)
    rw [hlen_sp] at h1
    exact h1
  have hbs_len : bs.length = 16 := (byteViewParse_bytes line sp bs h).1
  have hlead0 : leadingSpaces (bs.map renderedByte) = 0 := by
    cases bs with
    | nil => simp at hbs_len
    | cons b0 bs2 =>
      rw [List.map_cons]
      refine leadingSpaces_cons_ne _ _ (renderedByte_ne_space b0 ?_)
      intro hb0
      exact hh (by rw [hb0]; rfl)
  have hpadout : padWidth ((line.take sp ++ List.replicate (padWidth (line.drop sp)) ' '
      ++ bs.map renderedByte).drop sp) = padWidth (line.drop sp) := by
    rw [hdropspout]
    exact padWidth_eq_of_leadingSpaces _ _ hpad1
      (by rw [leadingSpaces_replicate_append, hlead0]; omega)
  have hnlout : ('\n' : Char) ∉ rest.take tok.2
      ++ (List.replicate (padWidth (line.drop sp)) ' ' ++ bs.map renderedByte) := by
    intro hm
    rcases List.mem_append.1 hm with hm | hm
    · exact hnlrest (List.take_subset _ _ hm)
    · rcases List.mem_append.1 hm with hm | hm
      · exact absurd (List.eq_of_mem_replicate hm) (by decide)
      · rw [List.mem_map] at hm
        obtain ⟨b, hbmem, hbeq⟩ := hm
        exact renderedByte_ne_newline b hbeq
  have haddrout : addrMatch (line.take sp ++ List.replicate (padWidth (line.drop sp)) ' '
      ++ bs.map renderedByte)
      = some (line.take 9, rest.take tok.2
        ++ (List.replicate (padWidth (line.drop sp)) ' ' ++ bs.map renderedByte)) := by
    unfold addrMatch
    rw [htake9out, hdrop9out, if_pos hfield, dotStarGroup_of_no_newline _ hnlout]
  have hAlen : (rest.take tok.2).length = tok.2 := by
    rw [List.length_take]
    omega
  have hcongr := scanB_takeWhile_congr (rest.take tok.2).length (rest.take tok.2)
    (le_refl _) false 0 tok.2 (rest.drop tok.2)
    (List.replicate (padWidth (line.drop sp)) ' ' ++ bs.map renderedByte)
    (by rw [hAlen]; omega)
    (by rw [hbound, boundaryOK_replicate_space _ hpad1])
  rw [List.take_append_drop] at hcongr
  have hLHS := takeWhile_eq_take_of_pairwise (scanB false 0 rest) 15 tok
    (scanB_pairwise false 0 rest) hgB
  have h16 : (15 : Nat) + 1 = 16 := rfl
  rw [h16] at hLHS
  have hEq : (scanB false 0 (rest.take tok.2
      ++ (List.replicate (padWidth (line.drop sp)) ' ' ++ bs.map renderedByte))).takeWhile
        (fun x => x.2 ≤ tok.2)
      = (scanB false 0 rest).take 16 := by
    rw [← hcongr]
    exact hLHS
  have hpre : (scanB false 0 (rest.take tok.2
      ++ (List.replicate (padWidth (line.drop sp)) ' ' ++ bs.map renderedByte))).takeWhile
        (fun x => x.2 ≤ tok.2)
      <+: scanB false 0 (rest.take tok.2
        ++ (List.replicate (padWidth (line.drop sp)) ' ' ++ bs.map renderedByte)) :=
    List.takeWhile_prefix _
  rw [hEq] at hpre
  have hlen16 : ((scanB false 0 rest).take 16).length = 16 := by
    rw [List.length_take]
    have h15 : 15 < (scanB false 0 rest).length := (List.getElem?_eq_some.1 hgB).1
    omega
  have htake16 : (scanB false 0 (rest.take tok.2
      ++ (List.replicate (padWidth (line.drop sp)) ' ' ++ bs.map renderedByte))).take 16
      = (scanB false 0 rest).take 16 := by
    have h1 := List.prefix_iff_eq_take.1 hpre
    rw [hlen16] at h1
    exact h1.symm
  have hgout : (scanB false 0 (rest.take tok.2
      ++ (List.replicate (padWidth (line.drop sp)) ' ' ++ bs.map renderedByte)))[15]?
      = some tok := by
    have h1 : ((scanB false 0 (rest.take tok.2
        ++ (List.replicate (padWidth (line.drop sp)) ' ' ++ bs.map renderedByte))).take
          16)[15]?
        = (scanB false 0 (rest.take tok.2
          ++ (List.replicate (padWidth (line.drop sp)) ' ' ++ bs.map renderedByte)))[15]? := by
      rw [List.getElem?_take, if_pos (by omega)]
    rw [← h1, htake16, List.getElem?_take, if_pos (by omega)]
    exact hgB
  refine ⟨?_, hpadout, htakespout⟩
  unfold byteViewParse
  rw [haddrout]
  simp only []
  rw [hgout]
  simp only []
  rw [htake16, h9, ← hsp9, ← hbs]

/-- A core that is either untouched by fixCore or classified as byte view
with a non-space-rendering first byte is a fixed point of a second pass. -/
theorem fixCore_stable (a : List Char)
    (h : fixCore a = a ∨ byteFirstOK a = true) :
    fixCore (fixCore a) = fixCore a := by
  rcases h with h | h
  · rw [h, h]
  · unfold byteFirstOK at h
    cases hp : byteViewParse a with
    | none => rw [hp] at h; simp at h
    | some q =>
      obtain ⟨sp, bs⟩ := q
      rw [hp] at h
      simp only [bne_iff_ne, ne_eq] at h
      obtain ⟨hparse, hpad, htake⟩ := byteViewParse_refix a sp bs hp h
      have hfix := fixCore_of_byte a sp bs hp
      have hfix2 := fixCore_of_byte _ sp bs hparse
      rw [htake, hpad] at hfix2
      rw [hfix]
      exact hfix2

/-- One pass of the per-line loop body is enough on a line with a break-free
core that is either untouched or stably byte-classified. -/
theorem fixOne_fixOne (l : List Char) (h : breakFree (stripNewline l).1 = true)
    (hst : fixCore (stripNewline l).1 = (stripNewline l).1 ∨
      byteFirstOK (stripNewline l).1 = true) :
    fixOne (fixOne l) = fixOne l := by
  rw [fixOne_eq (fixOne l), stripNewline_fixOne l h]
  show fixCore (fixCore (stripNewline l).1) ++ (stripNewline l).2 = fixOne l
  rw [fixCore_stable _ hst, fixOne_eq l]

/-- C5 counterexample: a byte-view dump line whose first byte is 0x20 gains
one extra padding space on every pass, so the patcher is not idempotent. -/
theorem fix_screen_text_not_idempotent :
    fix_screen_text (fix_screen_text spaceFirstLine) ≠ fix_screen_text spaceFirstLine := by
  decide

/-- C5 (corrected).  fix_screen_text is idempotent on screens whose line
breaks are LF or CRLF and whose lines are each either left unchanged by the
classifier or classified as byte view with a first byte that does not render
as a space.  The unrestricted statement of the specification is false:
fix_screen_text_not_idempotent exhibits a dump line (first byte 0x20) whose
rendered tail starts with a space that the second pass counts into the
measured padding run. -/
theorem fix_screen_text_idempotent (s : List Char) (hg : goodBreaks s = true)
    (hst : ∀ l ∈ splitlinesKeepends s,
      fixCore (stripNewline l).1 = (stripNewline l).1 ∨
        byteFirstOK (stripNewline l).1 = true) :
    fix_screen_text (fix_screen_text s) = fix_screen_text s := by
  have hcore := splitlines_core_breakFree s [] hg rfl
  rw [fix_screen_text]
  rw [resplit s hg, List.map_map]
  rw [fix_screen_text]
  congr 1
  apply List.map_congr_left
  intro l hl
  simp only [Function.comp_apply]
  exact fixOne_fixOne l (hcore l hl) (hst l hl)

/-- Witness for C5 on a two-line screen (a status line and a byte-view dump
line with first byte 0x8A). -/
theorem fix_screen_text_idempotent_witness :
    goodBreaks stableScreen = true ∧
    fix_screen_text (fix_screen_text stableScreen) = fix_screen_text stableScreen :=
  ⟨by decide, fix_screen_text_idempotent stableScreen (by decide) (by decide)⟩

/-- C7 counterexample: a screen with a lone CR inside a dump line splits into
a different number of lines after patching, because splitlines treats the CR
as a break but the patcher strips and reattaches only LF and CRLF. -/
theorem fix_screen_text_changes_line_count :
    (splitlinesKeepends (fix_screen_text loneCRScreen)).length
      ≠ (splitlinesKeepends loneCRScreen).length := by
  decide

/-- C7 (corrected).  On screens whose line breaks are LF or CRLF, the patcher
maps each line independently: the patched screen splits into exactly the
patched lines, so line count and order are preserved, each line keeps its
terminator (none, LF, or CRLF) exactly, and each patched core is fixCore of
the original core.  The unrestricted statement of the specification is false:
fix_screen_text_changes_line_count exhibits a screen with a lone CR whose
line count changes. -/
theorem fix_screen_text_line_structure (s : List Char) (hg : goodBreaks s = true) :
    splitlinesKeepends (fix_screen_text s) = (splitlinesKeepends s).map fixOne ∧
    (splitlinesKeepends (fix_screen_text s)).length = (splitlinesKeepends s).length ∧
    (splitlinesKeepends (fix_screen_text s)).map (fun l => (stripNewline l).2)
      = (splitlinesKeepends s).map (fun l => (stripNewline l).2) ∧
    (splitlinesKeepends (fix_screen_text s)).map (fun l => (stripNewline l).1)
      = (splitlinesKeepends s).map (fun l => fixCore (stripNewline l).1) := by
  have hr := resplit s hg
  have hcore := splitlines_core_breakFree s [] hg rfl
  refine ⟨hr, ?_, ?_, ?_⟩
  · rw [hr, List.length_map]
  · rw [hr, List.map_map]
    apply List.map_congr_left
    intro l hl
    simp only [Function.comp_apply]
    rw [stripNewline_fixOne l (hcore l hl)]
  · rw [hr, List.map_map]
    apply List.map_congr_left
    intro l hl
    simp only [Function.comp_apply]
    rw [stripNewline_fixOne l (hcore l hl)]

/-- Witness for C7 on a screen mixing a CRLF status line, an LF word-view
dump line and an unterminated final line. -/
theorem fix_screen_text_line_structure_witness :
    goodBreaks mixedScreen = true ∧
    splitlinesKeepends (fix_screen_text mixedScreen)
      = (splitlinesKeepends mixedScreen).map fixOne :=
  ⟨by decide, (fix_screen_text_line_structure mixedScreen (by decide)).1⟩
